import Mathlib

/-!
The Darwin back end of go-ps: `process_darwin.go`.

A shallow embedding of the argument decoder (`GetArguments`, `getRawArguments`,
`DarwinProcess.Arguments`) and of the process enumerator (`processes`,
`findProcess`, `go_darwin_append_proc`).

Conventions of the embedding

* a Go `[]byte` is a `List Byte`; a Go `string` is the list of its bytes;
* a Go slice value that may be `nil` is a `Slice`: `Slice.nil` is the nil slice,
  `Slice.lit xs` a non-nil slice holding `xs`;
* a run-time panic (index or slice bound out of range, `make` of a slice the
  runtime refuses or cannot allocate) is the outer `Option` being `none`;
* an `error` is an `Option Errno`, `none` being Go's `nil` error;
* every `for` loop is a function recursive on a fuel argument; the caller passes
  the number of iterations the loop can make at most (`int(length) - i`), which
  the lemmas below show to be enough.
-/

namespace GoPs

/-- One byte of a Go `[]byte`. -/
abbrev Byte := Fin 256

/-- Go strings are immutable byte sequences. -/
abbrev GoString := List Byte

/-- Value of a `syscall.Errno`; `0` means that the call succeeded. -/
abbrev Errno := Nat

/-- Go slice value: either the nil slice or a non-nil slice with its elements. -/
inductive Slice (α : Type) where
  | nil : Slice α
  | lit (elems : List α) : Slice α
  deriving DecidableEq

/-- Elements of a slice, the nil slice having none. -/
def Slice.toList {α : Type} : Slice α → List α
  | Slice.nil => []
  | Slice.lit xs => xs

/-- Go's `s == nil` on a slice. -/
def Slice.isNil {α : Type} : Slice α → Bool
  | Slice.nil => true
  | Slice.lit _ => false

/-! ## Machine integers -/

/-- Go's conversion `int(length)` of a `uint64` on the 64-bit Darwin targets:
the value is reduced to 64 bits and read as a two's complement number. -/
def intOfUint64 (u : Nat) : Int :=
  if u % 2 ^ 64 < 2 ^ 63 then ((u % 2 ^ 64 : Nat) : Int)
  else ((u % 2 ^ 64 : Nat) : Int) - 2 ^ 64

/-- Two's complement reading of a 32-bit pattern as an `int32`. -/
def int32OfUint32 (u : Nat) : Int :=
  if u % 2 ^ 32 < 2 ^ 31 then ((u % 2 ^ 32 : Nat) : Int)
  else ((u % 2 ^ 32 : Nat) : Int) - 2 ^ 32

/-- Go's conversion `int32(pid)` of an `int`. -/
def int32OfInt (n : Int) : Int :=
  int32OfUint32 (n % 2 ^ 32).toNat

/-- What `binary.Read(buf, binary.LittleEndian, &numArgs)` stores in the `int32`
`numArgs` when `buf` holds the given bytes: the first four bytes, least
significant first. With fewer than four bytes the read fails and `numArgs`
keeps its zero value (the source ignores the error). -/
def readNumArgs : List Byte → Int
  | b0 :: b1 :: b2 :: b3 :: _ =>
    int32OfUint32 (b0.val + b1.val * 2 ^ 8 + b2.val * 2 ^ 16 + b3.val * 2 ^ 24)
  | _ => 0

/-- Go's slice expression `rawBuf[lo:hi]` on a slice whose capacity equals its
length: it panics unless `lo ≤ hi ≤ len(rawBuf)`. -/
def sliceOf (rawBuf : List Byte) (lo hi : Nat) : Option (List Byte) :=
  if lo ≤ hi ∧ hi ≤ rawBuf.length then some ((rawBuf.drop lo).take (hi - lo)) else none

/-! ## `GetArguments`: the three scanning loops -/

/-- Lines 78-83: `for ; i < int(length); i++ { if rawBuf[i] == 0 { break } }`.
Returns the value of `i` after the loop. -/
def skipExecPath (rawBuf : List Byte) (L : Int) : Nat → Nat → Option Nat
  | 0, i => some i
  | fuel + 1, i =>
    if (i : Int) < L then
      match rawBuf[i]? with
      | none => none
      | some b => if b = 0 then some i else skipExecPath rawBuf L fuel (i + 1)
    else some i

/-- Lines 86-90: `for ; i < int(length); i++ { if rawBuf[i] != 0 { break } }`.
Returns the value of `i` after the loop. -/
def skipNulls (rawBuf : List Byte) (L : Int) : Nat → Nat → Option Nat
  | 0, i => some i
  | fuel + 1, i =>
    if (i : Int) < L then
      match rawBuf[i]? with
      | none => none
      | some b => if b ≠ 0 then some i else skipNulls rawBuf L fuel (i + 1)
    else some i

/-- Lines 98-104: the loop
`for ; i < int(length) && argsFound < int(numArgs); i++ { if rawBuf[i] == 0 { ... } }`
on the state `(i, argsStart, argsFound, arguments)`. Returns `arguments` after
the loop. -/
def scanArgs (rawBuf : List Byte) (L numArgs : Int) :
    Nat → Nat → Nat → Nat → List GoString → Option (List GoString)
  | 0, _, _, _, arguments => some arguments
  | fuel + 1, i, argsStart, argsFound, arguments =>
    if (i : Int) < L ∧ (argsFound : Int) < numArgs then
      match rawBuf[i]? with
      | none => none
      | some b =>
        if b = 0 then
          match sliceOf rawBuf argsStart i with
          | none => none
          | some s =>
            scanArgs rawBuf L numArgs fuel (i + 1) (i + 1) (argsFound + 1) (arguments ++ [s])
        else scanArgs rawBuf L numArgs fuel (i + 1) argsStart argsFound arguments
    else some arguments

/-- Lines 68-106 of `GetArguments`: the decoding of the raw buffer `rawBuf` with
declared length `length` (a `uint64`). `none` is a run-time panic. -/
def decodeArguments (rawBuf : List Byte) (length : Nat) : Option (Slice GoString) :=
  match sliceOf rawBuf 0 4 with
  | none => none
  | some hdr =>
    let numArgs := readNumArgs hdr
    let L := intOfUint64 length
    match skipExecPath rawBuf L (L - 4).toNat 4 with
    | none => none
    | some i1 =>
      match skipNulls rawBuf L (L - (i1 : Int)).toNat i1 with
      | none => none
      | some i2 =>
        if (i2 : Int) = L then some Slice.nil
        else
          match scanArgs rawBuf L numArgs (L - (i2 : Int)).toNat i2 i2 0 [] with
          | none => none
          | some arguments => some (Slice.lit arguments)

/-! ## The kernel queries -/

/-- What `getRawArguments` depends on outside the program, as inputs.
`argmax` is the `(KERN, ARGMAX)` query: the errno and the value stored in
`maxArgSize`. `procargs2 pid cap` is the `(KERN, PROCARGS2, pid)` query on a
buffer of `cap` bytes: the errno, the bytes copied to the start of the buffer,
and the value stored over the size argument. `allocates n` tells whether the Go
runtime obtains the memory of a slice of `n` bytes from the system. -/
structure Kernel where
  argmax : Errno × Nat
  procargs2 : Int → Nat → Errno × List Byte × Nat
  allocates : Nat → Bool

/-- Largest allocation the Go runtime accepts on the 64-bit Darwin targets, the
constant `maxAlloc` of the runtime (48 bits of heap address). -/
def maxAlloc : Nat := 2 ^ 48

/-- Go's `make([]byte, n)` for a `uint64` `n`, line 129: `makeslice` panics with
`len out of range` when `n` exceeds `maxAlloc` (so also when `int(n)` is
negative), and the runtime aborts when it cannot obtain the memory. `none` is
either failure; a slice made has `n` zero bytes. -/
def makeBytes (allocates : Nat → Bool) (n : Nat) : Option (List Byte) :=
  if n ≤ maxAlloc ∧ allocates n = true then some (List.replicate n 0) else none

/-- Buffer of `cap` zero bytes after the kernel copied `data` to its start. -/
def writeBuffer (cap : Nat) (data : List Byte) : List Byte :=
  data.take cap ++ List.replicate (cap - data.length) 0

/-- The function `getRawArguments`: the returned bytes, the returned `uint64`
and the error. `none` is a failure of `make([]byte, maxArgSize)` or the panic of
`&buffer[0]` on an empty buffer. -/
def getRawArguments (k : Kernel) (pid : Int) : Option (List Byte × Nat × Option Errno) :=
  let maxArgSize := k.argmax.2
  if k.argmax.1 ≠ 0 then some ([], maxArgSize, some k.argmax.1)
  else
    match makeBytes k.allocates maxArgSize with
    | none => none
    | some buffer =>
      if buffer.length = 0 then none
      else
        let reply := k.procargs2 (int32OfInt pid) maxArgSize
        let buffer := writeBuffer buffer.length reply.2.1
        let maxArgSize := reply.2.2
        if reply.1 ≠ 0 then some ([], maxArgSize, some reply.1)
        else some (buffer, maxArgSize, none)

/-- The function `GetArguments`. -/
def GetArguments (k : Kernel) (pid : Int) : Option (Slice GoString × Option Errno) :=
  match getRawArguments k pid with
  | none => none
  | some (rawBuf, length, err) =>
    match err with
    | some e => some (Slice.nil, some e)
    | none =>
      match decodeArguments rawBuf length with
      | none => none
      | some arguments => some (arguments, none)

/-! ## Process descriptors and the enumerator -/

/-- The struct `DarwinProcess`. -/
structure DarwinProcess where
  pid : Int
  ppid : Int
  binary : GoString
  deriving DecidableEq

/-- Method `Pid`. -/
def DarwinProcess.Pid (p : DarwinProcess) : Int := p.pid

/-- Method `PPid`. -/
def DarwinProcess.PPid (p : DarwinProcess) : Int := p.ppid

/-- Method `Executable`. -/
def DarwinProcess.Executable (p : DarwinProcess) : GoString := p.binary

/-- Method `Arguments`. -/
def DarwinProcess.Arguments (k : Kernel) (p : DarwinProcess) :
    Option (Slice GoString × Option Errno) :=
  match GetArguments k p.pid with
  | none => none
  | some (args, err) =>
    match err with
    | some e => some (Slice.nil, some e)
    | none => some (args, none)

/-- One run of the native call `C.darwinProcesses()`, as an input: the callback
invocations `(pid, ppid, comm)` it makes, in order, and the error it reports
(`none` for success). -/
structure NativeListing where
  callbacks : List (Int × Int × GoString)
  err : Option Errno

/-- The exported callback `go_darwin_append_proc`, acting on the package
variable `darwinProcs`. -/
def go_darwin_append_proc (pid ppid : Int) (comm : GoString)
    (darwinProcs : List DarwinProcess) : List DarwinProcess :=
  let proc : DarwinProcess := { pid := pid, ppid := ppid, binary := comm }
  darwinProcs ++ [proc]

/-- The native call: it invokes the callback once per listed process and then
reports its error. Returns the new value of `darwinProcs` and the error. -/
def darwinProcesses (native : NativeListing) (darwinProcs : List DarwinProcess) :
    List DarwinProcess × Option Errno :=
  (native.callbacks.foldl (fun acc c => go_darwin_append_proc c.1 c.2.1 c.2.2 acc) darwinProcs,
    native.err)

/-- The function `processes`, run on the current value of `darwinProcs`: the
returned pair and the new value of `darwinProcs`. -/
def processes (native : NativeListing) (_darwinProcs : List DarwinProcess) :
    (Slice DarwinProcess × Option Errno) × List DarwinProcess :=
  let darwinProcs : List DarwinProcess := []
  let r := darwinProcesses native darwinProcs
  let darwinProcs := r.1
  match r.2 with
  | some e => ((Slice.nil, some e), darwinProcs)
  | none => ((Slice.lit darwinProcs, none), darwinProcs)

/-- The loop of `findProcess`: `for _, p := range ps { if p.Pid() == pid { return p, nil } }`,
`none` when the loop ends without returning. -/
def findLoop (pid : Int) : List DarwinProcess → Option DarwinProcess
  | [] => none
  | p :: ps => if p.Pid = pid then some p else findLoop pid ps

/-- The function `findProcess`: the returned pair (`none` is the nil `Process`)
and the new value of `darwinProcs`. -/
def findProcess (native : NativeListing) (darwinProcs : List DarwinProcess) (pid : Int) :
    (Option DarwinProcess × Option Errno) × List DarwinProcess :=
  let r := processes native darwinProcs
  match r.1.2 with
  | some e => ((none, some e), r.2)
  | none => ((findLoop pid r.1.1.toList, none), r.2)

/-! ## List-level description of the decoding, used in the proofs -/

/-- Fields cut from `bs` at zero bytes: `cur` holds the bytes of the field being
read, `k` is the number of fields still wanted. A last field without a
terminating zero is not produced. -/
def splitFields : List Byte → Nat → List Byte → List GoString
  | [], _, _ => []
  | b :: bs, k, cur =>
    if k = 0 then []
    else if b = 0 then cur :: splitFields bs (k - 1) []
    else splitFields bs k (cur ++ [b])

/-- What the three loops compute, on lists: `L` is `int(length)`. -/
def decodeList (numArgs L : Int) (rawBuf : List Byte) : Slice GoString :=
  if L < 4 then Slice.lit []
  else
    let body := (rawBuf.take L.toNat).drop 4
    let rest := (body.dropWhile (fun b => decide (b ≠ 0))).dropWhile (fun b => decide (b = 0))
    if rest = [] then Slice.nil else Slice.lit (splitFields rest numArgs.toNat [])

/-- Zero-terminated strings laid end to end. -/
def terminated : List GoString → List Byte
  | [] => []
  | a :: rest => a ++ 0 :: terminated rest

/-- Buffer the `(KERN, PROCARGS2, pid)` query fills: the 4-byte count `hdr`, the
`exec_path` and its terminating zero, `pad` zero bytes, the zero-terminated
arguments, the zero-terminated environment strings. -/
def procargs2Layout (hdr path : List Byte) (pad : Nat) (args envs : List GoString) : List Byte :=
  hdr ++ (path ++ 0 :: (List.replicate pad 0 ++ (terminated args ++ terminated envs)))

/-- Bytes `[count=2] "path" 0 0 "arg1" 0 "arg2" 0 "env1" 0`. -/
def sampleBuf : List Byte :=
  [2, 0, 0, 0, 112, 97, 116, 104, 0, 0, 97, 114, 103, 49, 0, 97, 114, 103, 50, 0,
   101, 110, 118, 49, 0]

/-- Kernel whose ARGMAX query answers `cap` and whose PROCARGS2 query reports
`errno` after writing `data`, storing the size of `data`; the runtime obtains
the memory it asks for. -/
def kernelOf (cap : Nat) (errno : Errno) (data : List Byte) : Kernel :=
  { argmax := (0, cap), procargs2 := fun _ _ => (errno, data, data.length),
    allocates := fun _ => true }

/-! ## Reference description of the fields, after the words of the specification -/

/-- Reference: the pieces obtained by splitting `bs` at its zero bytes, the zero
bytes left out. A list with `k` zero bytes has `k + 1` pieces; the last piece
is the one no zero byte closes. -/
def splitAtZeros : List Byte → List GoString
  | [] => [[]]
  | b :: bs =>
    if b = 0 then [] :: splitAtZeros bs
    else
      match splitAtZeros bs with
      | [] => [[b]]
      | piece :: pieces => (b :: piece) :: pieces

/-- Reference: the first `min(max(numArgs, 0), k)` pieces of the segment `seg`
split at its zero bytes, `k` being the number of zero bytes of `seg`. -/
def referenceFields (numArgs : Int) (seg : List Byte) : List GoString :=
  (splitAtZeros seg).take (min (max numArgs 0).toNat (seg.count 0))

/-! ## Lemmas on the loops -/

theorem drop_take_cons (rawBuf : List Byte) (m i : Nat) (h1 : i < m)
    (h2 : m ≤ rawBuf.length) :
    ∃ b, rawBuf[i]? = some b ∧ (rawBuf.take m).drop i = b :: (rawBuf.take m).drop (i + 1) := by
  have hi : i < rawBuf.length := by omega
  have hi2 : i < (rawBuf.take m).length := by simp; omega
  refine ⟨rawBuf[i], List.getElem?_eq_getElem hi, ?_⟩
  rw [List.drop_eq_getElem_cons hi2]
  simp [List.getElem_take]

theorem drop_take_nil (rawBuf : List Byte) (m i : Nat) (h : m ≤ i) :
    (rawBuf.take m).drop i = [] := by
  apply List.drop_eq_nil_of_le
  simp; omega

theorem skipExecPath_exit (rawBuf : List Byte) (L : Int) (fuel i : Nat) (h : ¬ (i : Int) < L) :
    skipExecPath rawBuf L fuel i = some i := by
  cases fuel <;> simp [skipExecPath, h]

theorem skipNulls_exit (rawBuf : List Byte) (L : Int) (fuel i : Nat) (h : ¬ (i : Int) < L) :
    skipNulls rawBuf L fuel i = some i := by
  cases fuel <;> simp [skipNulls, h]

theorem scanArgs_exit (rawBuf : List Byte) (L numArgs : Int) (fuel i argsStart argsFound : Nat)
    (arguments : List GoString) (h : ¬ ((i : Int) < L ∧ (argsFound : Int) < numArgs)) :
    scanArgs rawBuf L numArgs fuel i argsStart argsFound arguments = some arguments := by
  cases fuel <;> simp only [scanArgs, h, if_false]

theorem skipExecPath_spec (rawBuf : List Byte) (m : Nat) (hm : m ≤ rawBuf.length) :
    ∀ (fuel i : Nat), i ≤ m → m - i ≤ fuel →
      ∃ j, skipExecPath rawBuf (m : Int) fuel i = some j ∧ i ≤ j ∧ j ≤ m ∧
        (rawBuf.take m).drop j
          = ((rawBuf.take m).drop i).dropWhile (fun b => decide (b ≠ 0)) := by
  intro fuel
  induction fuel with
  | zero =>
    intro i hi hf
    have him : i = m := by omega
    subst him
    refine ⟨i, rfl, le_refl _, le_refl _, ?_⟩
    rw [drop_take_nil rawBuf i i (le_refl _)]
    rfl
  | succ fuel ih =>
    intro i hi hf
    by_cases hlt : i < m
    · obtain ⟨b, hb, hd⟩ := drop_take_cons rawBuf m i hlt hm
      have hlt2 : (i : Int) < (m : Int) := by omega
      by_cases hz : b = 0
      · refine ⟨i, ?_, le_refl _, hi, ?_⟩
        · simp [skipExecPath, hlt2, hb, hz]
        · rw [hd]; simp [List.dropWhile, hz]
      · obtain ⟨j, hj, h1, h2, h3⟩ := ih (i + 1) (by omega) (by omega)
        refine ⟨j, ?_, by omega, h2, ?_⟩
        · simp [skipExecPath, hlt2, hb, hz, hj]
        · rw [h3, hd]; simp [List.dropWhile, hz]
    · have him : i = m := by omega
      subst him
      refine ⟨i, skipExecPath_exit _ _ _ _ (by omega), le_refl _, le_refl _, ?_⟩
      rw [drop_take_nil rawBuf i i (le_refl _)]
      rfl

theorem skipNulls_spec (rawBuf : List Byte) (m : Nat) (hm : m ≤ rawBuf.length) :
    ∀ (fuel i : Nat), i ≤ m → m - i ≤ fuel →
      ∃ j, skipNulls rawBuf (m : Int) fuel i = some j ∧ i ≤ j ∧ j ≤ m ∧
        (rawBuf.take m).drop j
          = ((rawBuf.take m).drop i).dropWhile (fun b => decide (b = 0)) := by
  intro fuel
  induction fuel with
  | zero =>
    intro i hi hf
    have him : i = m := by omega
    subst him
    refine ⟨i, rfl, le_refl _, le_refl _, ?_⟩
    rw [drop_take_nil rawBuf i i (le_refl _)]
    rfl
  | succ fuel ih =>
    intro i hi hf
    by_cases hlt : i < m
    · obtain ⟨b, hb, hd⟩ := drop_take_cons rawBuf m i hlt hm
      have hlt2 : (i : Int) < (m : Int) := by omega
      by_cases hz : b = 0
      · obtain ⟨j, hj, h1, h2, h3⟩ := ih (i + 1) (by omega) (by omega)
        refine ⟨j, ?_, by omega, h2, ?_⟩
        · simp [skipNulls, hlt2, hb, hz, hj]
        · rw [h3, hd]; simp [List.dropWhile, hz]
      · refine ⟨i, ?_, le_refl _, hi, ?_⟩
        · simp [skipNulls, hlt2, hb, hz]
        · rw [hd]; simp [List.dropWhile, hz]
    · have him : i = m := by omega
      subst him
      refine ⟨i, skipNulls_exit _ _ _ _ (by omega), le_refl _, le_refl _, ?_⟩
      rw [drop_take_nil rawBuf i i (le_refl _)]
      rfl

theorem splitFields_zero (bs cur : List Byte) : splitFields bs 0 cur = [] := by
  cases bs <;> simp [splitFields]

theorem splitFields_cons_zero (bs cur : List Byte) (k : Nat) (hk : k ≠ 0) :
    splitFields (0 :: bs) k cur = cur :: splitFields bs (k - 1) [] := by
  simp [splitFields, hk]

theorem splitFields_cons_ne (bs cur : List Byte) (b : Byte) (k : Nat) (hk : k ≠ 0)
    (hb : b ≠ 0) : splitFields (b :: bs) k cur = splitFields bs k (cur ++ [b]) := by
  simp [splitFields, hk, hb]

theorem sliceOf_eq (rawBuf : List Byte) (lo hi : Nat) (h1 : lo ≤ hi) (h2 : hi ≤ rawBuf.length) :
    sliceOf rawBuf lo hi = some ((rawBuf.drop lo).take (hi - lo)) := by
  simp [sliceOf, h1, h2]

theorem slice_snoc (rawBuf : List Byte) (lo i : Nat) (b : Byte) (h1 : lo ≤ i)
    (hb : rawBuf[i]? = some b) :
    (rawBuf.drop lo).take (i + 1 - lo) = (rawBuf.drop lo).take (i - lo) ++ [b] := by
  have e : i + 1 - lo = (i - lo) + 1 := by omega
  rw [e, List.take_succ]
  have : (rawBuf.drop lo)[i - lo]? = some b := by
    rw [List.getElem?_drop]
    have e2 : lo + (i - lo) = i := by omega
    rw [e2]; exact hb
  rw [this]; rfl

theorem scanArgs_spec (rawBuf : List Byte) (m : Nat) (numArgs : Int) (hm : m ≤ rawBuf.length) :
    ∀ (fuel i argsStart argsFound : Nat) (arguments : List GoString),
      i ≤ m → argsStart ≤ i → m - i ≤ fuel →
      scanArgs rawBuf (m : Int) numArgs fuel i argsStart argsFound arguments
        = some (arguments ++ splitFields ((rawBuf.take m).drop i)
            (numArgs - (argsFound : Int)).toNat ((rawBuf.drop argsStart).take (i - argsStart))) := by
  intro fuel
  induction fuel with
  | zero =>
    intro i argsStart argsFound arguments hi hs hf
    have him : m ≤ i := by omega
    rw [drop_take_nil rawBuf m i him]
    simp [scanArgs, splitFields]
  | succ fuel ih =>
    intro i argsStart argsFound arguments hi hs hf
    by_cases hc : (i : Int) < (m : Int) ∧ (argsFound : Int) < numArgs
    · obtain ⟨hlt2, hfound⟩ := hc
      have hlt : i < m := by omega
      obtain ⟨b, hb, hd⟩ := drop_take_cons rawBuf m i hlt hm
      have hk : (numArgs - (argsFound : Int)).toNat ≠ 0 := by omega
      have hk2 : (numArgs - ((argsFound + 1 : Nat) : Int)).toNat
          = (numArgs - (argsFound : Int)).toNat - 1 := by omega
      by_cases hz : b = 0
      · have hsl := sliceOf_eq rawBuf argsStart i hs (by omega)
        have hrec := ih (i + 1) (i + 1) (argsFound + 1)
          (arguments ++ [(rawBuf.drop argsStart).take (i - argsStart)]) (by omega) (le_refl _)
          (by omega)
        rw [scanArgs, if_pos ⟨hlt2, hfound⟩, hb]
        simp only [hz, if_true, hsl]
        rw [hrec, hd, hk2, hz, splitFields_cons_zero _ _ _ hk]
        have e0 : i + 1 - (i + 1) = 0 := by omega
        rw [e0, List.take_zero, List.append_assoc]
        rfl
      · have hrec := ih (i + 1) argsStart argsFound arguments (by omega) (by omega) (by omega)
        rw [scanArgs, if_pos ⟨hlt2, hfound⟩, hb]
        simp only [hz, if_false]
        rw [hrec, hd, slice_snoc rawBuf argsStart i b hs hb, splitFields_cons_ne _ _ _ _ hk hz]
    · rw [scanArgs_exit _ _ _ _ _ _ _ _ hc]
      by_cases hlt : i < m
      · have hfound : ¬ (argsFound : Int) < numArgs := fun h => hc ⟨by omega, h⟩
        have hk : (numArgs - (argsFound : Int)).toNat = 0 := by omega
        rw [hk, splitFields_zero]; simp
      · rw [drop_take_nil rawBuf m i (by omega)]
        simp [splitFields]

theorem readNumArgs_take (rawBuf : List Byte) (h4 : 4 ≤ rawBuf.length) :
    readNumArgs (rawBuf.take 4) = readNumArgs rawBuf := by
  match rawBuf, h4 with
  | _ :: _ :: _ :: _ :: _, _ => rfl

theorem sliceOf_header (rawBuf : List Byte) (h4 : 4 ≤ rawBuf.length) :
    sliceOf rawBuf 0 4 = some (rawBuf.take 4) := by
  simp [sliceOf, h4]

theorem decodeArguments_small (rawBuf : List Byte) (length : Nat) (h4 : 4 ≤ rawBuf.length)
    (hL : intOfUint64 length < 4) : decodeArguments rawBuf length = some (Slice.lit []) := by
  unfold decodeArguments
  rw [sliceOf_header rawBuf h4]
  simp only []
  rw [skipExecPath_exit _ _ _ _ (by simp; omega)]
  simp only []
  rw [skipNulls_exit _ _ _ _ (by simp; omega)]
  simp only []
  rw [if_neg (by simp; omega), scanArgs_exit _ _ _ _ _ _ _ _ (by simp; omega)]

theorem decodeArguments_eq (rawBuf : List Byte) (length : Nat) (h4 : 4 ≤ rawBuf.length)
    (hL : intOfUint64 length ≤ (rawBuf.length : Int)) :
    decodeArguments rawBuf length
      = some (decodeList (readNumArgs rawBuf) (intOfUint64 length) rawBuf) := by
  by_cases hsmall : intOfUint64 length < 4
  · rw [decodeArguments_small rawBuf length h4 hsmall]
    simp [decodeList, hsmall]
  · have hnn : 0 ≤ intOfUint64 length := by omega
    unfold decodeArguments decodeList
    rw [sliceOf_header rawBuf h4, if_neg hsmall]
    simp only [readNumArgs_take rawBuf h4]
    generalize intOfUint64 length = L at *
    lift L to ℕ using hnn
    have hm : L ≤ rawBuf.length := by omega
    have h4m : 4 ≤ L := by omega
    obtain ⟨i1, e1, a1, b1, c1⟩ := skipExecPath_spec rawBuf L hm ((L : Int) - 4).toNat 4 h4m
      (by omega)
    obtain ⟨i2, e2, a2, b2, c2⟩ := skipNulls_spec rawBuf L hm ((L : Int) - (i1 : Int)).toNat i1 b1
      (by omega)
    simp only [e1, e2, Int.toNat_ofNat]
    rw [← c1, ← c2]
    by_cases hend : i2 = L
    · subst hend
      rw [if_pos rfl, drop_take_nil rawBuf i2 i2 (le_refl _)]
      simp
    · have hlt : i2 < L := by omega
      obtain ⟨b, _, hd⟩ := drop_take_cons rawBuf L i2 hlt hm
      rw [if_neg (by omega), scanArgs_spec rawBuf L _ hm _ i2 i2 0 [] b2 (le_refl _) (by omega)]
      rw [if_neg (by rw [hd]; simp)]
      simp

theorem skipExecPath_ge (rawBuf : List Byte) (L : Int) :
    ∀ (fuel i j : Nat), skipExecPath rawBuf L fuel i = some j → i ≤ j := by
  intro fuel
  induction fuel with
  | zero => intro i j h; simp [skipExecPath] at h; omega
  | succ fuel ih =>
    intro i j h
    rw [skipExecPath] at h
    split at h
    · split at h
      · exact absurd h (by simp)
      · split at h
        · simp at h; omega
        · have := ih _ _ h; omega
    · simp at h; omega

theorem skipNulls_ge (rawBuf : List Byte) (L : Int) :
    ∀ (fuel i j : Nat), skipNulls rawBuf L fuel i = some j → i ≤ j := by
  intro fuel
  induction fuel with
  | zero => intro i j h; simp [skipNulls] at h; omega
  | succ fuel ih =>
    intro i j h
    rw [skipNulls] at h
    split at h
    · split at h
      · exact absurd h (by simp)
      · split at h
        · simp at h; omega
        · have := ih _ _ h; omega
    · simp at h; omega

theorem sliceOf_some (rawBuf : List Byte) (lo hi : Nat) (s : List Byte)
    (h : sliceOf rawBuf lo hi = some s) :
    lo ≤ hi ∧ hi ≤ rawBuf.length ∧ s = (rawBuf.drop lo).take (hi - lo) := by
  unfold sliceOf at h
  split at h
  · rename_i hc
    simp at h
    exact ⟨hc.1, hc.2, h.symm⟩
  · exact absurd h (by simp)

theorem scanArgs_length_le (rawBuf : List Byte) (L numArgs : Int) :
    ∀ (fuel i argsStart argsFound : Nat) (arguments out : List GoString),
      scanArgs rawBuf L numArgs fuel i argsStart argsFound arguments = some out →
      out.length ≤ arguments.length + (numArgs - (argsFound : Int)).toNat := by
  intro fuel
  induction fuel with
  | zero =>
    intro i argsStart argsFound arguments out h
    simp [scanArgs] at h
    subst h; omega
  | succ fuel ih =>
    intro i argsStart argsFound arguments out h
    rw [scanArgs] at h
    split at h
    · rename_i hc
      split at h
      · exact absurd h (by simp)
      · split at h
        · split at h
          · exact absurd h (by simp)
          · have := ih _ _ _ _ _ h
            simp only [List.length_append, List.length_singleton] at this
            omega
        · exact ih _ _ _ _ _ h
    · simp at h
      subst h; omega

/-- What a successful run of the decoding went through. -/
theorem decodeArguments_some (rawBuf : List Byte) (length : Nat) (r : Slice GoString)
    (h : decodeArguments rawBuf length = some r) :
    4 ≤ rawBuf.length ∧ ∃ i1 i2 fuel1 fuel2,
      skipExecPath rawBuf (intOfUint64 length) fuel1 4 = some i1 ∧
      skipNulls rawBuf (intOfUint64 length) fuel2 i1 = some i2 ∧
      (r = Slice.nil ∨ ∃ fuel3 out,
        scanArgs rawBuf (intOfUint64 length) (readNumArgs rawBuf) fuel3 i2 i2 0 [] = some out ∧
        r = Slice.lit out) := by
  unfold decodeArguments at h
  split at h
  · exact absurd h (by simp)
  · rename_i hdr hh
    obtain ⟨_, h4, hhdr⟩ := sliceOf_some _ _ _ _ hh
    refine ⟨h4, ?_⟩
    have hnum : readNumArgs hdr = readNumArgs rawBuf := by
      rw [hhdr]; exact readNumArgs_take rawBuf h4
    simp only [hnum] at h
    split at h
    · exact absurd h (by simp)
    · rename_i i1 h1
      split at h
      · exact absurd h (by simp)
      · rename_i i2 h2
        refine ⟨i1, i2, _, _, h1, h2, ?_⟩
        split at h
        · left; simp at h; exact h.symm
        · split at h
          · exact absurd h (by simp)
          · rename_i out h3
            right
            simp at h
            exact ⟨_, out, h3, h.symm⟩

/-- Invariant of the third loop: the bytes between `argsStart` and `i` are
non-zero, so every field appended is a zero-free run closed by a zero byte. -/
theorem scanArgs_fields (rawBuf : List Byte) (L numArgs : Int) :
    ∀ (fuel i argsStart argsFound : Nat) (arguments out : List GoString),
      4 ≤ argsStart → argsStart ≤ i →
      (∀ j, argsStart ≤ j → j < i → rawBuf[j]? ≠ some 0) →
      (∀ x ∈ arguments, ∃ s e : Nat, 4 ≤ s ∧ s ≤ e ∧ (e : Int) < L ∧
          x = (rawBuf.drop s).take (e - s) ∧
          (∀ j, s ≤ j → j < e → rawBuf[j]? ≠ some 0) ∧ rawBuf[e]? = some 0) →
      scanArgs rawBuf L numArgs fuel i argsStart argsFound arguments = some out →
      ∀ x ∈ out, ∃ s e : Nat, 4 ≤ s ∧ s ≤ e ∧ (e : Int) < L ∧
          x = (rawBuf.drop s).take (e - s) ∧
          (∀ j, s ≤ j → j < e → rawBuf[j]? ≠ some 0) ∧ rawBuf[e]? = some 0 := by
  intro fuel
  induction fuel with
  | zero =>
    intro i argsStart argsFound arguments out _ _ _ hacc h
    simp [scanArgs] at h
    subst h; exact hacc
  | succ fuel ih =>
    intro i argsStart argsFound arguments out h4 hs hrun hacc h
    rw [scanArgs] at h
    split at h
    · rename_i hc
      split at h
      · exact absurd h (by simp)
      · rename_i b hb
        split at h
        · rename_i hz
          split at h
          · exact absurd h (by simp)
          · rename_i str hstr
            obtain ⟨_, _, hstr2⟩ := sliceOf_some _ _ _ _ hstr
            refine ih _ _ _ _ _ (by omega) (le_refl _) (fun j h1 h2 => by omega) ?_ h
            intro x hx
            rcases List.mem_append.mp hx with hx | hx
            · exact hacc x hx
            · simp at hx
              subst hx
              exact ⟨argsStart, i, h4, hs, hc.1, hstr2, hrun, by rw [hb, hz]⟩
        · rename_i hz
          refine ih _ _ _ _ _ h4 (by omega) ?_ hacc h
          intro j h1 h2
          by_cases hji : j = i
          · subst hji
            rw [hb]
            intro hh
            exact hz (Option.some.inj hh)
          · exact hrun j h1 (by omega)
    · simp at h
      subst h; exact hacc

theorem slice_no_zero (rawBuf : List Byte) (s e : Nat)
    (hrun : ∀ j, s ≤ j → j < e → rawBuf[j]? ≠ some 0) :
    ∀ b ∈ (rawBuf.drop s).take (e - s), b ≠ 0 := by
  intro b hb hz
  subst hz
  obtain ⟨n, hn⟩ := List.mem_iff_getElem?.mp hb
  rw [List.getElem?_take] at hn
  split at hn
  · rw [List.getElem?_drop] at hn
    exact hrun (s + n) (by omega) (by omega) hn
  · exact absurd hn (by simp)

theorem intOfUint64_le (u : Nat) : intOfUint64 u ≤ (u : Int) := by
  unfold intOfUint64
  have := Nat.mod_le u (2 ^ 64)
  split <;> omega

theorem intOfUint64_of_lt (u : Nat) (h : u < 2 ^ 63) : intOfUint64 u = (u : Int) := by
  unfold intOfUint64
  have e : u % 2 ^ 64 = u := Nat.mod_eq_of_lt (by omega)
  rw [e, if_pos h]

/-- The decoding does not panic when the buffer holds the header and the
declared length does not exceed the size of the buffer. -/
theorem decodeArguments_total (rawBuf : List Byte) (length : Nat) (h4 : 4 ≤ rawBuf.length)
    (hlen : length ≤ rawBuf.length) :
    decodeArguments rawBuf length
      = some (decodeList (readNumArgs rawBuf) (intOfUint64 length) rawBuf) := by
  apply decodeArguments_eq rawBuf length h4
  have := intOfUint64_le length
  omega

/-! ## Lemmas on the list-level description -/

theorem prefix_drop {α : Type} (k : Nat) {xs ys : List α} (h : xs <+: ys) :
    xs.drop k <+: ys.drop k := by
  obtain ⟨t, rfl⟩ := h
  by_cases hk : k ≤ xs.length
  · rw [List.drop_append_of_le_length hk]
    exact List.prefix_append _ _
  · rw [List.drop_eq_nil_of_le (by omega : xs.length ≤ k)]
    exact List.nil_prefix

theorem prefix_dropWhile {α : Type} (p : α → Bool) :
    ∀ {xs ys : List α}, xs <+: ys → xs.dropWhile p <+: ys.dropWhile p := by
  intro xs
  induction xs with
  | nil => intro ys _; exact List.nil_prefix
  | cons x xs ih =>
    intro ys h
    cases ys with
    | nil => simp at h
    | cons y ys =>
      obtain ⟨hxy, h2⟩ := List.cons_prefix_cons.mp h
      subst hxy
      by_cases hp : p x = true
      · rw [List.dropWhile_cons_of_pos hp, List.dropWhile_cons_of_pos hp]
        exact ih h2
      · rw [List.dropWhile_cons_of_neg hp, List.dropWhile_cons_of_neg hp]
        exact h

theorem prefix_splitFields :
    ∀ (xs ys : List Byte) (k : Nat) (cur : List Byte), xs <+: ys →
      splitFields xs k cur <+: splitFields ys k cur := by
  intro xs
  induction xs with
  | nil => intro ys k cur _; simp [splitFields]
  | cons x xs ih =>
    intro ys k cur h
    cases ys with
    | nil => simp at h
    | cons y ys =>
      obtain ⟨hxy, h2⟩ := List.cons_prefix_cons.mp h
      subst hxy
      by_cases hk : k = 0
      · subst hk; simp [splitFields]
      · by_cases hz : x = 0
        · subst hz
          rw [splitFields_cons_zero _ _ _ hk, splitFields_cons_zero _ _ _ hk]
          exact (List.prefix_cons_inj _).mpr (ih _ _ _ h2)
        · rw [splitFields_cons_ne _ _ _ _ hk hz, splitFields_cons_ne _ _ _ _ hk hz]
          exact ih _ _ _ h2

theorem prefix_decodeList (numArgs L L1 : Int) (rawBuf : List Byte) (h : L ≤ L1) :
    (decodeList numArgs L rawBuf).toList <+: (decodeList numArgs L1 rawBuf).toList := by
  unfold decodeList
  by_cases hs : L < 4
  · rw [if_pos hs]; exact List.nil_prefix
  · rw [if_neg hs, if_neg (by omega : ¬ L1 < 4)]
    have hp : rawBuf.take L.toNat <+: rawBuf.take L1.toNat :=
      List.take_prefix_take_left rawBuf (by omega)
    have hrest := prefix_dropWhile (fun b : Byte => decide (b = 0))
      (prefix_dropWhile (fun b : Byte => decide (b ≠ 0)) (prefix_drop 4 hp))
    simp only []
    split
    · exact List.nil_prefix
    · rename_i hne
      split
      · rename_i he
        rw [he] at hrest
        exact absurd (List.prefix_nil.mp hrest) hne
      · exact prefix_splitFields _ _ _ _ hrest

theorem dropWhile_path (path rest : List Byte) (hpath : ∀ b ∈ path, b ≠ 0) :
    (path ++ 0 :: rest).dropWhile (fun b => decide (b ≠ 0)) = 0 :: rest := by
  induction path with
  | nil => simp
  | cons x xs ih =>
    have hx : x ≠ 0 := hpath x (List.mem_cons_self _ _)
    rw [List.cons_append, List.dropWhile_cons_of_pos (by simpa using hx)]
    exact ih (fun b hb => hpath b (List.mem_cons_of_mem _ hb))

theorem dropWhile_padding (pad : Nat) (rest : List Byte) :
    (List.replicate pad 0 ++ rest).dropWhile (fun b => decide (b = 0))
      = rest.dropWhile (fun b => decide (b = 0)) := by
  induction pad with
  | zero => simp
  | succ n ih =>
    rw [List.replicate_succ, List.cons_append, List.dropWhile_cons_of_pos (by simp)]
    exact ih

theorem splitFields_field (a rest : List Byte) (ha : ∀ b ∈ a, b ≠ 0) (k : Nat) (hk : k ≠ 0) :
    ∀ cur, splitFields (a ++ 0 :: rest) k cur = (cur ++ a) :: splitFields rest (k - 1) [] := by
  induction a with
  | nil => intro cur; simp [splitFields_cons_zero _ _ _ hk]
  | cons x xs ih =>
    intro cur
    have hx : x ≠ 0 := ha x (List.mem_cons_self _ _)
    rw [List.cons_append, splitFields_cons_ne _ _ _ _ hk hx,
      ih (fun b hb => ha b (List.mem_cons_of_mem _ hb))]
    simp

theorem splitFields_terminated (rest : List Byte) :
    ∀ (args : List GoString), (∀ a ∈ args, ∀ b ∈ a, b ≠ 0) →
      splitFields (terminated args ++ rest) args.length [] = args := by
  intro args
  induction args with
  | nil => intro _; simp [terminated, splitFields_zero]
  | cons a as ih =>
    intro h
    rw [terminated, List.append_assoc, List.cons_append,
      splitFields_field a _ (h a (List.mem_cons_self _ _)) _ (by simp)]
    simp only [List.nil_append, List.length_cons, Nat.add_sub_cancel]
    rw [ih (fun a2 h2 => h a2 (List.mem_cons_of_mem _ h2))]

theorem readNumArgs_append (hdr rest : List Byte) (h : hdr.length = 4) :
    readNumArgs (hdr ++ rest) = readNumArgs hdr := by
  match hdr, h with
  | [_, _, _, _], _ => rfl

theorem procargs2Layout_length (hdr path : List Byte) (pad : Nat) (args envs : List GoString) :
    (procargs2Layout hdr path pad args envs).length
      = hdr.length + (path.length + (1 + (pad + (terminated args ++ terminated envs).length))) := by
  simp [procargs2Layout]
  omega

/-- List-level value of the decoding of a laid out buffer whose first argument,
if there is one, is not empty. -/
theorem decodeList_layout (hdr path : List Byte) (pad : Nat) (args envs : List GoString)
    (hhdr : hdr.length = 4) (hpath : ∀ b ∈ path, b ≠ 0)
    (hargs : ∀ a ∈ args, ∀ b ∈ a, b ≠ 0) (hfirst : args.head? ≠ some []) :
    (decodeList (args.length : Int) ((procargs2Layout hdr path pad args envs).length : Int)
      (procargs2Layout hdr path pad args envs)).toList = args := by
  have hlen := procargs2Layout_length hdr path pad args envs
  unfold decodeList
  rw [if_neg (by omega), Int.toNat_ofNat, List.take_length]
  simp only [Int.toNat_ofNat]
  have hbody : (procargs2Layout hdr path pad args envs).drop 4
      = path ++ 0 :: (List.replicate pad 0 ++ (terminated args ++ terminated envs)) := by
    unfold procargs2Layout
    exact List.drop_left' hhdr
  rw [hbody, dropWhile_path _ _ hpath,
    List.dropWhile_cons_of_pos (by simp), dropWhile_padding]
  cases args with
  | nil =>
    split
    · rfl
    · simp [Slice.toList, splitFields_zero]
  | cons a rest =>
    cases a with
    | nil => simp at hfirst
    | cons c cs =>
      have hc : c ≠ 0 := hargs (c :: cs) (List.mem_cons_self _ _) c (List.mem_cons_self _ _)
      have hstart : terminated ((c :: cs) :: rest) ++ terminated envs
          = c :: (cs ++ 0 :: terminated rest ++ terminated envs) := by
        simp [terminated]
      have hdw : (terminated ((c :: cs) :: rest) ++ terminated envs).dropWhile
          (fun b => decide (b = 0)) = terminated ((c :: cs) :: rest) ++ terminated envs := by
        rw [hstart, List.dropWhile_cons_of_neg (by simpa using hc)]
      rw [hdw, if_neg (by rw [hstart]; simp)]
      exact splitFields_terminated _ _ hargs

theorem findLoop_none (pid : Int) :
    ∀ (ps : List DarwinProcess), (∀ p ∈ ps, p.Pid ≠ pid) → findLoop pid ps = none := by
  intro ps
  induction ps with
  | nil => intro _; rfl
  | cons q qs ih =>
    intro h
    rw [findLoop, if_neg (h q (List.mem_cons_self _ _))]
    exact ih (fun p hp => h p (List.mem_cons_of_mem _ hp))

theorem findLoop_first (pid : Int) :
    ∀ (ps : List DarwinProcess) (p : DarwinProcess), p ∈ ps → p.Pid = pid →
      ∃ pre q post, ps = pre ++ q :: post ∧ q.Pid = pid ∧ (∀ x ∈ pre, x.Pid ≠ pid) ∧
        findLoop pid ps = some q := by
  intro ps
  induction ps with
  | nil => intro p hp _; simp at hp
  | cons a as ih =>
    intro p hp hpid
    by_cases ha : a.Pid = pid
    · exact ⟨[], a, as, rfl, ha, by simp, by rw [findLoop, if_pos ha]⟩
    · have hp2 : p ∈ as := by
        rcases List.mem_cons.mp hp with h | h
        · subst h; exact absurd hpid ha
        · exact h
      obtain ⟨pre, q, post, e, hq, hpre, hf⟩ := ih p hp2 hpid
      refine ⟨a :: pre, q, post, by rw [e]; rfl, hq, ?_, by rw [findLoop, if_neg ha]; exact hf⟩
      intro x hx
      rcases List.mem_cons.mp hx with h | h
      · subst h; exact ha
      · exact hpre x h

theorem callbacks_foldl (calls : List (Int × Int × GoString)) :
    ∀ (init : List DarwinProcess),
      calls.foldl (fun acc c => go_darwin_append_proc c.1 c.2.1 c.2.2 acc) init
        = init ++ calls.map (fun c => { pid := c.1, ppid := c.2.1, binary := c.2.2 }) := by
  induction calls with
  | nil => intro init; simp
  | cons c cs ih =>
    intro init
    rw [List.foldl_cons, ih]
    simp [go_darwin_append_proc]

theorem processes_ok (calls : List (Int × Int × GoString)) (darwinProcs : List DarwinProcess) :
    (processes { callbacks := calls, err := none } darwinProcs).1
      = (Slice.lit (calls.map (fun c => { pid := c.1, ppid := c.2.1, binary := c.2.2 })), none) := by
  simp [processes, darwinProcesses, callbacks_foldl]

theorem writeBuffer_length (cap : Nat) (data : List Byte) :
    (writeBuffer cap data).length = cap := by
  simp [writeBuffer]
  omega

theorem makeBytes_some (allocates : Nat → Bool) (n : Nat) (buffer : List Byte)
    (h : makeBytes allocates n = some buffer) :
    n ≤ maxAlloc ∧ allocates n = true ∧ buffer = List.replicate n 0 := by
  unfold makeBytes at h
  split at h
  · rename_i hc
    simp at h
    exact ⟨hc.1, hc.2, h.symm⟩
  · exact absurd h (by simp)

/-- Value of `getRawArguments` once the ARGMAX query succeeded and the buffer is
made and not empty. -/
theorem getRawArguments_made (k : Kernel) (pid : Int) (h1 : k.argmax.1 = 0)
    (h2 : k.argmax.2 ≠ 0) (hmax : k.argmax.2 ≤ maxAlloc)
    (halloc : k.allocates k.argmax.2 = true) :
    getRawArguments k pid
      = if (k.procargs2 (int32OfInt pid) k.argmax.2).1 ≠ 0 then
          some ([], (k.procargs2 (int32OfInt pid) k.argmax.2).2.2,
            some (k.procargs2 (int32OfInt pid) k.argmax.2).1)
        else
          some (writeBuffer k.argmax.2 (k.procargs2 (int32OfInt pid) k.argmax.2).2.1,
            (k.procargs2 (int32OfInt pid) k.argmax.2).2.2, none) := by
  simp [getRawArguments, makeBytes, h1, h2, hmax, halloc]

/-- Once the ARGMAX query succeeded, `getRawArguments` returns only if the
buffer is made and not empty. -/
theorem getRawArguments_some (k : Kernel) (pid : Int)
    (raw : List Byte × Nat × Option Errno) (h1 : k.argmax.1 = 0)
    (h : getRawArguments k pid = some raw) :
    k.argmax.2 ≠ 0 ∧ k.argmax.2 ≤ maxAlloc ∧ k.allocates k.argmax.2 = true := by
  unfold getRawArguments at h
  simp only [h1, ne_eq, not_true_eq_false, if_false] at h
  cases hm : makeBytes k.allocates k.argmax.2 with
  | none => rw [hm] at h; exact absurd h (by simp)
  | some buffer =>
    obtain ⟨hmax, halloc, hbuf⟩ := makeBytes_some _ _ _ hm
    refine ⟨?_, hmax, halloc⟩
    intro h0
    rw [hm] at h
    simp only [hbuf, List.length_replicate, h0, if_true] at h
    exact absurd h (by simp)

/-- Number of strings of a result, against the header count. -/
theorem decodeArguments_length_le (rawBuf : List Byte) (length : Nat)
    (r : Slice GoString) (h : decodeArguments rawBuf length = some r) :
    r.toList.length ≤ (readNumArgs rawBuf).toNat := by
  obtain ⟨_, _, i2, _, _, _, _, hr⟩ := decodeArguments_some rawBuf length r h
  rcases hr with hr | ⟨fuel3, out, hscan, hr⟩
  · subst hr
    simp [Slice.toList]
  · subst hr
    have := scanArgs_length_le _ _ _ _ _ _ _ _ _ hscan
    simp only [Slice.toList, List.length_nil] at *
    omega

/-! ## The claims -/

/-- C1, amended: for a buffer laid out as the kernel contract describes (a
4-byte header reading as the count `n` of arguments, an `exec_path` without zero
byte and its terminating zero, `pad` zero bytes, the `n` zero-terminated
arguments without zero byte, any zero-terminated environment strings), whose
first argument, when there is one, is not the empty string, and with the
declared length equal to the size of the buffer (below `2^63`, as the size of
every Go slice), the decoding returns exactly the `n` arguments in their order;
no environment string is part of the result. -/
theorem decodeArguments_layout (hdr path : List Byte) (pad : Nat) (args envs : List GoString)
    (hhdr : hdr.length = 4) (hn : readNumArgs hdr = (args.length : Int))
    (hpath : ∀ b ∈ path, b ≠ 0) (hargs : ∀ a ∈ args, ∀ b ∈ a, b ≠ 0)
    (hfirst : args.head? ≠ some [])
    (hsz : (procargs2Layout hdr path pad args envs).length < 2 ^ 63) :
    ∃ r, decodeArguments (procargs2Layout hdr path pad args envs)
        (procargs2Layout hdr path pad args envs).length = some r ∧ r.toList = args := by
  have hlen := procargs2Layout_length hdr path pad args envs
  have h4 : 4 ≤ (procargs2Layout hdr path pad args envs).length := by omega
  refine ⟨_, decodeArguments_total _ _ h4 (le_refl _), ?_⟩
  have hnum : readNumArgs (procargs2Layout hdr path pad args envs) = (args.length : Int) := by
    unfold procargs2Layout
    rw [readNumArgs_append _ _ hhdr, hn]
  rw [intOfUint64_of_lt _ hsz, hnum]
  exact decodeList_layout hdr path pad args envs hhdr hpath hargs hfirst

/-- C1, witness: count 2, "path", the terminating zero and one more zero,
"arg1", "arg2", "env1" decodes to "arg1", "arg2". -/
theorem decodeArguments_layout_witness :
    procargs2Layout [2, 0, 0, 0] [112, 97, 116, 104] 1
        [[97, 114, 103, 49], [97, 114, 103, 50]] [[101, 110, 118, 49]] = sampleBuf ∧
    ∃ r, decodeArguments
        (procargs2Layout [2, 0, 0, 0] [112, 97, 116, 104] 1
          [[97, 114, 103, 49], [97, 114, 103, 50]] [[101, 110, 118, 49]])
        (procargs2Layout [2, 0, 0, 0] [112, 97, 116, 104] 1
          [[97, 114, 103, 49], [97, 114, 103, 50]] [[101, 110, 118, 49]]).length = some r ∧
      r.toList = [[97, 114, 103, 49], [97, 114, 103, 50]] :=
  ⟨by decide,
    decodeArguments_layout [2, 0, 0, 0] [112, 97, 116, 104] 1
      [[97, 114, 103, 49], [97, 114, 103, 50]] [[101, 110, 118, 49]]
      (by decide) (by decide) (by simp) (by simp) (by decide) (by decide)⟩

/-- C1, counterexample: with count 1, path "p", no padding, the empty string as
the only argument and the environment string "e", the buffer is laid out as the
claim asks, and the decoding returns the environment string "e" instead of the
argument. -/
theorem decodeArguments_layout_counterexample :
    ([1, 0, 0, 0] : List Byte).length = 4 ∧
    readNumArgs [1, 0, 0, 0] = (([[]] : List GoString).length : Int) ∧
    (∀ b ∈ ([112] : List Byte), b ≠ 0) ∧
    (∀ a ∈ ([[]] : List GoString), ∀ b ∈ a, b ≠ 0) ∧
    procargs2Layout [1, 0, 0, 0] [112] 0 [[]] [[101]] = [1, 0, 0, 0, 112, 0, 0, 101, 0] ∧
    decodeArguments (procargs2Layout [1, 0, 0, 0] [112] 0 [[]] [[101]])
      (procargs2Layout [1, 0, 0, 0] [112] 0 [[]] [[101]]).length = some (Slice.lit [[101]]) ∧
    ¬ ∃ r, decodeArguments (procargs2Layout [1, 0, 0, 0] [112] 0 [[]] [[101]])
      (procargs2Layout [1, 0, 0, 0] [112] 0 [[]] [[101]]).length = some r ∧ r.toList = [[]] := by
  refine ⟨by decide, by decide, by simp, by simp, by decide, by decide, ?_⟩
  rintro ⟨r, h1, h2⟩
  have h3 : decodeArguments (procargs2Layout [1, 0, 0, 0] [112] 0 [[]] [[101]])
      (procargs2Layout [1, 0, 0, 0] [112] 0 [[]] [[101]]).length = some (Slice.lit [[101]]) := by
    decide
  rw [h3] at h1
  cases h1
  revert h2
  decide

/-- C2: whatever the buffer and the declared length, a result of the decoding
holds at most `max(numArgs, 0)` strings, `numArgs` being the first four bytes
read as a little-endian signed 32-bit integer. -/
theorem decodeArguments_length_le_numArgs (rawBuf : List Byte) (length : Nat)
    (r : Slice GoString) (h : decodeArguments rawBuf length = some r) :
    (r.toList.length : Int) ≤ max (readNumArgs rawBuf) 0 := by
  have hle := decodeArguments_length_le rawBuf length r h
  rcases le_total (readNumArgs rawBuf) 0 with hneg | hpos
  · rw [max_eq_right hneg]
    have : (readNumArgs rawBuf).toNat = 0 := by omega
    omega
  · rw [max_eq_left hpos]
    omega

/-- C2, witness: the sample buffer declares two arguments and holds three
zero-terminated strings after the path; two strings are returned. -/
theorem decodeArguments_length_le_numArgs_witness :
    decodeArguments sampleBuf 25
        = some (Slice.lit [[97, 114, 103, 49], [97, 114, 103, 50]]) ∧
    (((Slice.lit [[97, 114, 103, 49], [97, 114, 103, 50]] : Slice GoString).toList.length : Int)
      ≤ max (readNumArgs sampleBuf) 0) :=
  ⟨by decide, decodeArguments_length_le_numArgs sampleBuf 25 _ (by decide)⟩

/-- C3, amended: when the header count is 0 and the declared length is not
larger than the size of the buffer, the decoding returns a result without
argument string, whatever the bytes after the header, and `GetArguments` returns
it with a nil error. For the other declared lengths the decoding can panic, and
a result it returns has no argument string either. -/
theorem decodeArguments_count_zero (rawBuf : List Byte) (length : Nat)
    (h0 : readNumArgs rawBuf = 0) :
    (∀ r, decodeArguments rawBuf length = some r → r.toList = []) ∧
    (4 ≤ rawBuf.length → length ≤ rawBuf.length →
      ∃ r, decodeArguments rawBuf length = some r ∧ r.toList = []) ∧
    (∀ k pid res, getRawArguments k pid = some (rawBuf, length, none) →
      GetArguments k pid = some res → res.1.toList = [] ∧ res.2 = none) := by
  have hpart : ∀ r, decodeArguments rawBuf length = some r → r.toList = [] := by
    intro r h
    have hle := decodeArguments_length_le rawBuf length r h
    rw [h0] at hle
    have : r.toList.length = 0 := by
      simp only [Int.toNat_zero] at hle
      omega
    exact List.length_eq_zero.mp this
  refine ⟨hpart, ?_, ?_⟩
  · intro h4 hlen
    exact ⟨_, decodeArguments_total rawBuf length h4 hlen,
      hpart _ (decodeArguments_total rawBuf length h4 hlen)⟩
  · intro k pid res hraw hget
    unfold GetArguments at hget
    rw [hraw] at hget
    simp only [] at hget
    split at hget
    · exact absurd hget (by simp)
    · rename_i r hr
      simp at hget
      subst hget
      exact ⟨hpart r hr, rfl⟩

/-- C3, witness: count 0, path "p", then the zero-terminated string "e". -/
theorem decodeArguments_count_zero_witness :
    readNumArgs [0, 0, 0, 0, 112, 0, 101, 0] = 0 ∧
    ∃ r, decodeArguments [0, 0, 0, 0, 112, 0, 101, 0] 8 = some r ∧ r.toList = [] :=
  ⟨by decide,
    (decodeArguments_count_zero [0, 0, 0, 0, 112, 0, 101, 0] 8 (by decide)).2.1
      (by decide) (by decide)⟩

/-- C3, counterexample: header count 0, six bytes in the buffer and a declared
length of 10: the first loop reads `rawBuf[6]`, out of range, and the decoding
panics instead of returning a result. -/
theorem decodeArguments_count_zero_counterexample :
    readNumArgs [0, 0, 0, 0, 112, 97] = 0 ∧
    decodeArguments [0, 0, 0, 0, 112, 97] 10 = none ∧
    ¬ ∃ r, decodeArguments [0, 0, 0, 0, 112, 97] 10 = some r ∧ r.toList = [] := by
  have hnone : decodeArguments [0, 0, 0, 0, 112, 97] 10 = none := by decide
  refine ⟨by decide, hnone, ?_⟩
  rintro ⟨r, h, _⟩
  rw [hnone] at h
  exact absurd h (by simp)

/-- C4: every string a result of the decoding holds is a slice `rawBuf[s:e]`
with `4 ≤ s ≤ e < length`, has no zero byte, and is followed by a zero byte at
index `e` of the buffer. A field that is not closed by a zero byte before the
declared length is therefore not part of the result. -/
theorem decodeArguments_fields (rawBuf : List Byte) (length : Nat) (r : Slice GoString)
    (h : decodeArguments rawBuf length = some r) :
    ∀ x ∈ r.toList, ∃ s e : Nat, 4 ≤ s ∧ s ≤ e ∧ e < length ∧
      sliceOf rawBuf s e = some x ∧ (∀ b ∈ x, b ≠ 0) ∧ rawBuf[e]? = some 0 := by
  obtain ⟨_, i1, i2, _, _, h1, h2, hr⟩ := decodeArguments_some rawBuf length r h
  rcases hr with hr | ⟨fuel3, out, hscan, hr⟩
  · subst hr
    intro x hx
    simp [Slice.toList] at hx
  · subst hr
    have hi1 := skipExecPath_ge _ _ _ _ _ h1
    have hi2 := skipNulls_ge _ _ _ _ _ h2
    intro x hx
    obtain ⟨s, e, hs4, hse, heL, hx2, hrun, hzero⟩ :=
      scanArgs_fields rawBuf _ _ fuel3 i2 i2 0 [] out (by omega) (le_refl _)
        (fun j a b => by omega) (fun y hy => by simp at hy) hscan x hx
    have hlt : e < length := by
      have := intOfUint64_le length
      omega
    have hin : e < rawBuf.length := by
      by_contra hc
      rw [List.getElem?_eq_none (by omega)] at hzero
      exact absurd hzero (by simp)
    refine ⟨s, e, hs4, hse, hlt, ?_, ?_, hzero⟩
    · rw [sliceOf_eq rawBuf s e hse (by omega), hx2]
    · rw [hx2]
      exact slice_no_zero rawBuf s e hrun

/-- C4, witness: the sample buffer cut inside "arg2" (declared length 18); the
only string returned is "arg1", the slice `rawBuf[10:14]`. -/
theorem decodeArguments_fields_witness :
    decodeArguments sampleBuf 18 = some (Slice.lit [[97, 114, 103, 49]]) ∧
    ∀ x ∈ (Slice.lit [[97, 114, 103, 49]] : Slice GoString).toList,
      ∃ s e : Nat, 4 ≤ s ∧ s ≤ e ∧ e < 18 ∧
        sliceOf sampleBuf s e = some x ∧ (∀ b ∈ x, b ≠ 0) ∧ sampleBuf[e]? = some 0 :=
  ⟨by decide, decodeArguments_fields sampleBuf 18 _ (by decide)⟩

/-- C5: for declared lengths `L ≤ L1` within the buffer (whose size is below
`2^63`, as the size of every Go slice), the strings decoded with length `L` are
a prefix of the strings decoded with length `L1`, the nil result counting as the
empty list; both decodings return when the buffer holds the header. -/
theorem decodeArguments_truncation (rawBuf : List Byte) (L L1 : Nat) (hle : L ≤ L1)
    (hin : L1 ≤ rawBuf.length) (hsz : rawBuf.length < 2 ^ 63) :
    (∀ r r1, decodeArguments rawBuf L = some r → decodeArguments rawBuf L1 = some r1 →
      r.toList <+: r1.toList) ∧
    (4 ≤ rawBuf.length → ∃ r r1, decodeArguments rawBuf L = some r ∧
      decodeArguments rawBuf L1 = some r1 ∧ r.toList <+: r1.toList) := by
  have hpre : (decodeList (readNumArgs rawBuf) (intOfUint64 L) rawBuf).toList
      <+: (decodeList (readNumArgs rawBuf) (intOfUint64 L1) rawBuf).toList := by
    apply prefix_decodeList
    rw [intOfUint64_of_lt L (by omega), intOfUint64_of_lt L1 (by omega)]
    omega
  constructor
  · intro r r1 h h1
    have h4 : 4 ≤ rawBuf.length := (decodeArguments_some rawBuf L r h).1
    rw [decodeArguments_total rawBuf L h4 (by omega)] at h
    rw [decodeArguments_total rawBuf L1 h4 hin] at h1
    cases h
    cases h1
    exact hpre
  · intro h4
    exact ⟨_, _, decodeArguments_total rawBuf L h4 (by omega),
      decodeArguments_total rawBuf L1 h4 hin, hpre⟩

/-- C5, witness: the sample buffer cut so that "arg2" has no terminating zero
(length 19) gives "arg1", a prefix of "arg1", "arg2" decoded with the full
length 25. -/
theorem decodeArguments_truncation_witness :
    decodeArguments sampleBuf 19 = some (Slice.lit [[97, 114, 103, 49]]) ∧
    decodeArguments sampleBuf 25
      = some (Slice.lit [[97, 114, 103, 49], [97, 114, 103, 50]]) ∧
    (Slice.lit [[97, 114, 103, 49]] : Slice GoString).toList
      <+: (Slice.lit [[97, 114, 103, 49], [97, 114, 103, 50]] : Slice GoString).toList :=
  ⟨by decide, by decide,
    (decodeArguments_truncation sampleBuf 19 25 (by decide) (by decide) (by decide)).1 _ _
      (by decide) (by decide)⟩

/-- C6, the code at the failing input: the kernel queries succeed, the buffer
declares no argument (count 0, path "p", environment string "e"), and
`GetArguments` returns a non-nil slice without element instead of nil. -/
theorem GetArguments_empty_not_nil :
    getRawArguments (kernelOf 8 0 [0, 0, 0, 0, 112, 0, 101, 0]) 1
      = some ([0, 0, 0, 0, 112, 0, 101, 0], 8, none) ∧
    decodeArguments [0, 0, 0, 0, 112, 0, 101, 0] 8 = some (Slice.lit []) ∧
    GetArguments (kernelOf 8 0 [0, 0, 0, 0, 112, 0, 101, 0]) 1 = some (Slice.lit [], none) ∧
    (Slice.lit [] : Slice GoString).isNil = false := by
  refine ⟨by decide, by decide, by decide, by decide⟩

/-- C7: `GetArguments` returns an error exactly when a kernel query fails. When
the ARGMAX query fails, or when it succeeds and the PROCARGS2 query fails (the
query is issued once the buffer is made: a size that is not zero, within
`maxAlloc`, and memory the runtime obtains), the result is the nil list with the
errno the kernel reported. When both queries succeed no error is returned,
whatever the buffer holds, and a result is returned when the buffer is made,
holds the header and the stored size lies within it. An error never comes with a
list, and `DarwinProcess.Arguments` returns what `GetArguments` returns for its
pid. -/
theorem GetArguments_error (k : Kernel) (pid : Int) :
    (k.argmax.1 ≠ 0 → GetArguments k pid = some (Slice.nil, some k.argmax.1)) ∧
    (k.argmax.1 = 0 → k.argmax.2 ≠ 0 → k.argmax.2 ≤ maxAlloc →
      k.allocates k.argmax.2 = true →
      (k.procargs2 (int32OfInt pid) k.argmax.2).1 ≠ 0 →
      GetArguments k pid
        = some (Slice.nil, some (k.procargs2 (int32OfInt pid) k.argmax.2).1)) ∧
    (k.argmax.1 = 0 → (k.procargs2 (int32OfInt pid) k.argmax.2).1 = 0 →
      (∀ res, GetArguments k pid = some res → res.2 = none) ∧
      (4 ≤ k.argmax.2 → k.argmax.2 ≤ maxAlloc → k.allocates k.argmax.2 = true →
        (k.procargs2 (int32OfInt pid) k.argmax.2).2.2 ≤ k.argmax.2 →
        ∃ args, GetArguments k pid = some (args, none))) ∧
    (∀ res e, GetArguments k pid = some res → res.2 = some e →
      res.1 = Slice.nil ∧ e ≠ 0 ∧
      (k.argmax.1 = e ∨ (k.argmax.1 = 0 ∧ (k.procargs2 (int32OfInt pid) k.argmax.2).1 = e))) ∧
    (∀ p : DarwinProcess, p.pid = pid → DarwinProcess.Arguments k p = GetArguments k pid) := by
  have hfail1 : k.argmax.1 ≠ 0 → GetArguments k pid = some (Slice.nil, some k.argmax.1) := by
    intro h
    simp [GetArguments, getRawArguments, h]
  have hfail2 : k.argmax.1 = 0 → k.argmax.2 ≠ 0 → k.argmax.2 ≤ maxAlloc →
      k.allocates k.argmax.2 = true →
      (k.procargs2 (int32OfInt pid) k.argmax.2).1 ≠ 0 →
      GetArguments k pid
        = some (Slice.nil, some (k.procargs2 (int32OfInt pid) k.argmax.2).1) := by
    intro h1 h2 hmax halloc h3
    rw [GetArguments, getRawArguments_made k pid h1 h2 hmax halloc, if_pos h3]
  have hok : k.argmax.1 = 0 → (k.procargs2 (int32OfInt pid) k.argmax.2).1 = 0 →
      ∀ res, GetArguments k pid = some res → res.2 = none := by
    intro h1 h3 res hres
    unfold GetArguments at hres
    cases hraw : getRawArguments k pid with
    | none => rw [hraw] at hres; exact absurd hres (by simp)
    | some raw =>
      obtain ⟨h2, hmax, halloc⟩ := getRawArguments_some k pid raw h1 hraw
      rw [getRawArguments_made k pid h1 h2 hmax halloc, if_neg (by simp [h3])] at hres
      simp only at hres
      split at hres
      · exact absurd hres (by simp)
      · simp at hres
        rw [← hres]
  have herr : ∀ res e, GetArguments k pid = some res → res.2 = some e →
      res.1 = Slice.nil ∧ e ≠ 0 ∧
      (k.argmax.1 = e ∨ (k.argmax.1 = 0 ∧ (k.procargs2 (int32OfInt pid) k.argmax.2).1 = e)) := by
    intro res e hres he
    by_cases h1 : k.argmax.1 = 0
    · by_cases h3 : (k.procargs2 (int32OfInt pid) k.argmax.2).1 = 0
      · rw [hok h1 h3 res hres] at he
        exact absurd he (by simp)
      · cases hraw : getRawArguments k pid with
        | none => simp [GetArguments, hraw] at hres
        | some raw =>
          obtain ⟨h2, hmax, halloc⟩ := getRawArguments_some k pid raw h1 hraw
          rw [hfail2 h1 h2 hmax halloc h3] at hres
          cases hres
          simp only [Option.some.injEq] at he
          subst he
          exact ⟨rfl, h3, Or.inr ⟨h1, rfl⟩⟩
    · rw [hfail1 h1] at hres
      cases hres
      simp only [Option.some.injEq] at he
      subst he
      exact ⟨rfl, h1, Or.inl rfl⟩
  refine ⟨hfail1, hfail2, ?_, herr, ?_⟩
  · intro h1 h3
    refine ⟨hok h1 h3, ?_⟩
    intro h4 hmax halloc hsize
    have h2 : k.argmax.2 ≠ 0 := by omega
    have hdec := decodeArguments_total
      (writeBuffer k.argmax.2 (k.procargs2 (int32OfInt pid) k.argmax.2).2.1)
      (k.procargs2 (int32OfInt pid) k.argmax.2).2.2
      (by rw [writeBuffer_length]; exact h4) (by rw [writeBuffer_length]; exact hsize)
    refine ⟨decodeList
      (readNumArgs (writeBuffer k.argmax.2 (k.procargs2 (int32OfInt pid) k.argmax.2).2.1))
      (intOfUint64 (k.procargs2 (int32OfInt pid) k.argmax.2).2.2)
      (writeBuffer k.argmax.2 (k.procargs2 (int32OfInt pid) k.argmax.2).2.1), ?_⟩
    rw [GetArguments, getRawArguments_made k pid h1 h2 hmax halloc, if_neg (by simp [h3])]
    simp only [hdec]
  · intro p hp
    subst hp
    unfold DarwinProcess.Arguments
    cases hres : GetArguments k p.pid with
    | none => rfl
    | some res =>
      obtain ⟨args, err⟩ := res
      cases err with
      | none => rfl
      | some e =>
        have := (herr (args, some e) e hres rfl).1
        simp only at this
        subst this
        rfl

/-- C7, witness: the ARGMAX query succeeds and the PROCARGS2 query fails with
errno 22; `GetArguments` and `Arguments` return the nil list and that errno. -/
theorem GetArguments_error_witness :
    GetArguments (kernelOf 16 22 []) 1 = some (Slice.nil, some 22) ∧
    DarwinProcess.Arguments (kernelOf 16 22 []) { pid := 1, ppid := 0, binary := [] }
      = GetArguments (kernelOf 16 22 []) 1 :=
  ⟨(GetArguments_error (kernelOf 16 22 []) 1).2.1 (by decide) (by decide) (by decide)
      (by decide) (by decide),
    (GetArguments_error (kernelOf 16 22 []) 1).2.2.2.2 _ rfl⟩

/-- C8: on a buffer of at least 4 bytes and with a declared length not larger
than the size of the buffer, the decoding evaluates no index and no slice out of
range: it does not panic and returns a list. -/
theorem decodeArguments_no_panic (rawBuf : List Byte) (length : Nat)
    (h4 : 4 ≤ rawBuf.length) (hlen : length ≤ rawBuf.length) :
    ∃ r, decodeArguments rawBuf length = some r :=
  ⟨_, decodeArguments_total rawBuf length h4 hlen⟩

/-- C8, witness: the sample buffer with its full length. -/
theorem decodeArguments_no_panic_witness :
    4 ≤ sampleBuf.length ∧ 25 ≤ sampleBuf.length ∧ ∃ r, decodeArguments sampleBuf 25 = some r :=
  ⟨by decide, by decide, decodeArguments_no_panic sampleBuf 25 (by decide) (by decide)⟩

/-- C9: when the native call succeeds, `processes` returns a snapshot and
`findProcess` returns, with a nil error, the first descriptor of the snapshot
whose `Pid()` is the queried pid if there is one, and the nil descriptor if
there is none. -/
theorem findProcess_first (native : NativeListing) (darwinProcs : List DarwinProcess)
    (pid : Int) (hok : native.err = none) :
    ∃ snapshot, (processes native darwinProcs).1 = (Slice.lit snapshot, none) ∧
      ((∃ p ∈ snapshot, p.Pid = pid) →
        ∃ pre q post, snapshot = pre ++ q :: post ∧ q.Pid = pid ∧
          (∀ x ∈ pre, x.Pid ≠ pid) ∧
          (findProcess native darwinProcs pid).1 = (some q, none)) ∧
      ((∀ p ∈ snapshot, p.Pid ≠ pid) →
        (findProcess native darwinProcs pid).1 = (none, none)) := by
  obtain ⟨calls, err⟩ := native
  simp only at hok
  subst hok
  have hp := processes_ok calls darwinProcs
  refine ⟨_, hp, ?_, ?_⟩
  · rintro ⟨p, hmem, hpid⟩
    obtain ⟨pre, q, post, e, hq, hpre, hf⟩ := findLoop_first pid _ p hmem hpid
    refine ⟨pre, q, post, e, hq, hpre, ?_⟩
    simp only [findProcess, hp, Slice.toList, hf]
  · intro hnone
    simp only [findProcess, hp, Slice.toList, findLoop_none pid _ hnone]

/-- C9, witness: two listed processes have pid 7; the first one is returned. -/
theorem findProcess_first_witness :
    (findProcess { callbacks := [(1, 0, [97]), (7, 1, [98]), (7, 1, [99])], err := none } [] 7).1
      = (some { pid := 7, ppid := 1, binary := [98] }, none) ∧
    ∃ snapshot,
      (processes { callbacks := [(1, 0, [97]), (7, 1, [98]), (7, 1, [99])], err := none } []).1
        = (Slice.lit snapshot, none) ∧
      ((∃ p ∈ snapshot, p.Pid = 7) →
        ∃ pre q post, snapshot = pre ++ q :: post ∧ q.Pid = 7 ∧
          (∀ x ∈ pre, x.Pid ≠ 7) ∧
          (findProcess { callbacks := [(1, 0, [97]), (7, 1, [98]), (7, 1, [99])], err := none }
            [] 7).1 = (some q, none)) ∧
      ((∀ p ∈ snapshot, p.Pid ≠ 7) →
        (findProcess { callbacks := [(1, 0, [97]), (7, 1, [98]), (7, 1, [99])], err := none }
          [] 7).1 = (none, none)) :=
  ⟨by decide,
    findProcess_first { callbacks := [(1, 0, [97]), (7, 1, [98]), (7, 1, [99])], err := none }
      [] 7 rfl⟩

/-- C10: when the native call makes the callback invocations `calls` and
succeeds, `processes` returns, with a nil error and whatever `darwinProcs` held
before, a snapshot with one descriptor per invocation, in order, whose `Pid()`,
`PPid()` and `Executable()` are the pid, parent pid and name of the invocation;
`darwinProcs` is left holding that snapshot. -/
theorem processes_snapshot (calls : List (Int × Int × GoString))
    (darwinProcs : List DarwinProcess) :
    ∃ snapshot,
      processes { callbacks := calls, err := none } darwinProcs
        = ((Slice.lit snapshot, none), snapshot) ∧
      snapshot.map (fun p => (p.Pid, p.PPid, p.Executable)) = calls := by
  refine ⟨calls.map (fun c => { pid := c.1, ppid := c.2.1, binary := c.2.2 }), ?_, ?_⟩
  · simp [processes, darwinProcesses, callbacks_foldl]
  · simp [List.map_map, Function.comp_def, DarwinProcess.Pid, DarwinProcess.PPid,
      DarwinProcess.Executable]

/-! ## Postconditions of the loops, on indices -/

theorem skipExecPath_post (rawBuf : List Byte) (L : Int) :
    ∀ (fuel i j : Nat), (L - (i : Int)).toNat ≤ fuel →
      skipExecPath rawBuf L fuel i = some j →
      (∀ k, i ≤ k → k < j → rawBuf[k]? ≠ some 0) ∧
      ((j : Int) < L → rawBuf[j]? = some 0) ∧ (j : Int) ≤ max L (i : Int) := by
  intro fuel
  induction fuel with
  | zero =>
    intro i j hf h
    simp [skipExecPath] at h
    subst h
    refine ⟨fun k h1 h2 => by omega, fun hlt => by omega, le_max_right _ _⟩
  | succ fuel ih =>
    intro i j hf h
    rw [skipExecPath] at h
    split at h
    · rename_i hlt
      split at h
      · exact absurd h (by simp)
      · rename_i b hb
        split at h
        · rename_i hz
          simp at h
          subst h
          exact ⟨fun k h1 h2 => by omega, fun _ => by rw [hb, hz], le_max_right _ _⟩
        · rename_i hz
          obtain ⟨p1, p2, p3⟩ := ih (i + 1) j (by omega) h
          refine ⟨?_, p2, ?_⟩
          · intro k h1 h2
            by_cases hk : k = i
            · subst hk
              rw [hb]
              exact fun hh => hz (Option.some.inj hh)
            · exact p1 k (by omega) h2
          · have : max L ((i + 1 : Nat) : Int) = L := max_eq_left (by omega)
            rw [this] at p3
            exact le_trans p3 (le_max_left _ _)
    · simp at h
      subst h
      exact ⟨fun k h1 h2 => by omega, fun hlt => by omega, le_max_right _ _⟩

theorem skipNulls_post (rawBuf : List Byte) (L : Int) :
    ∀ (fuel i j : Nat), (L - (i : Int)).toNat ≤ fuel →
      skipNulls rawBuf L fuel i = some j →
      (∀ k, i ≤ k → k < j → rawBuf[k]? = some 0) ∧
      ((j : Int) < L → ∃ b, rawBuf[j]? = some b ∧ b ≠ 0) ∧ (j : Int) ≤ max L (i : Int) := by
  intro fuel
  induction fuel with
  | zero =>
    intro i j hf h
    simp [skipNulls] at h
    subst h
    refine ⟨fun k h1 h2 => by omega, fun hlt => by omega, le_max_right _ _⟩
  | succ fuel ih =>
    intro i j hf h
    rw [skipNulls] at h
    split at h
    · rename_i hlt
      split at h
      · exact absurd h (by simp)
      · rename_i b hb
        split at h
        · rename_i hz
          simp at h
          subst h
          exact ⟨fun k h1 h2 => by omega, fun _ => ⟨b, hb, hz⟩, le_max_right _ _⟩
        · rename_i hz
          have hz0 : b = 0 := by
            by_contra hc
            exact hz hc
          obtain ⟨p1, p2, p3⟩ := ih (i + 1) j (by omega) h
          refine ⟨?_, p2, ?_⟩
          · intro k h1 h2
            by_cases hk : k = i
            · subst hk
              rw [hb, hz0]
            · exact p1 k (by omega) h2
          · have : max L ((i + 1 : Nat) : Int) = L := max_eq_left (by omega)
            rw [this] at p3
            exact le_trans p3 (le_max_left _ _)
    · simp at h
      subst h
      exact ⟨fun k h1 h2 => by omega, fun hlt => by omega, le_max_right _ _⟩

/-- What a successful run of the decoding went through, with the fuel each loop
was given. -/
theorem decodeArguments_unfold (rawBuf : List Byte) (length : Nat) (r : Slice GoString)
    (h : decodeArguments rawBuf length = some r) :
    4 ≤ rawBuf.length ∧ ∃ i1 i2,
      skipExecPath rawBuf (intOfUint64 length) (intOfUint64 length - 4).toNat 4 = some i1 ∧
      skipNulls rawBuf (intOfUint64 length) (intOfUint64 length - (i1 : Int)).toNat i1
        = some i2 ∧
      (((i2 : Int) = intOfUint64 length ∧ r = Slice.nil) ∨
        ((i2 : Int) ≠ intOfUint64 length ∧ ∃ out,
          scanArgs rawBuf (intOfUint64 length) (readNumArgs rawBuf)
            (intOfUint64 length - (i2 : Int)).toNat i2 i2 0 [] = some out ∧
          r = Slice.lit out)) := by
  unfold decodeArguments at h
  split at h
  · exact absurd h (by simp)
  · rename_i hdr hh
    obtain ⟨_, h4, hhdr⟩ := sliceOf_some _ _ _ _ hh
    refine ⟨h4, ?_⟩
    have hnum : readNumArgs hdr = readNumArgs rawBuf := by
      rw [hhdr]; exact readNumArgs_take rawBuf h4
    simp only [hnum] at h
    split at h
    · exact absurd h (by simp)
    · rename_i i1 h1
      split at h
      · exact absurd h (by simp)
      · rename_i i2 h2
        refine ⟨i1, i2, h1, h2, ?_⟩
        split at h
        · rename_i heq
          left
          simp at h
          exact ⟨heq, h.symm⟩
        · rename_i hne
          split at h
          · exact absurd h (by simp)
          · rename_i out h3
            right
            simp at h
            exact ⟨hne, out, h3, h.symm⟩

/-- Where the first two loops stop and what the decoding returns, for a declared
length `m ≥ 4` within the buffer: `i1` is the end of `exec_path`, `i2` the start
of the first argument. -/
theorem decodeArguments_cursor (rawBuf : List Byte) (m : Nat) (h4 : 4 ≤ m)
    (hm : m ≤ rawBuf.length) (hsz : m < 2 ^ 63) :
    ∃ i1 i2, 4 ≤ i1 ∧ i1 ≤ i2 ∧ i2 ≤ m ∧
      (∀ k, 4 ≤ k → k < i1 → rawBuf[k]? ≠ some 0) ∧ (i1 < m → rawBuf[i1]? = some 0) ∧
      (∀ k, i1 ≤ k → k < i2 → rawBuf[k]? = some 0) ∧
      (i2 < m → ∃ b, rawBuf[i2]? = some b ∧ b ≠ 0) ∧
      ((i2 = m ∧ decodeArguments rawBuf m = some Slice.nil) ∨
        (i2 < m ∧ decodeArguments rawBuf m = some (Slice.lit
          (splitFields ((rawBuf.take m).drop i2) (readNumArgs rawBuf).toNat [])))) := by
  have hL := intOfUint64_of_lt m hsz
  have htot := decodeArguments_total rawBuf m (by omega) hm
  obtain ⟨_, i1, i2, e1, e2, hr⟩ := decodeArguments_unfold _ _ _ htot
  rw [hL] at e1 e2 hr htot
  obtain ⟨p1, p2, p3⟩ := skipExecPath_post rawBuf _ _ _ _ (le_refl _) e1
  obtain ⟨q1, q2, q3⟩ := skipNulls_post rawBuf _ _ _ _ (le_refl _) e2
  have g1 := skipExecPath_ge _ _ _ _ _ e1
  have g2 := skipNulls_ge _ _ _ _ _ e2
  have b1 : i1 ≤ m := by
    rw [max_eq_left (Int.ofNat_le.mpr h4)] at p3
    omega
  have b2 : i2 ≤ m := by
    rw [max_eq_left (Int.ofNat_le.mpr b1)] at q3
    omega
  refine ⟨i1, i2, g1, g2, b2, p1, fun h => p2 (by omega), q1, fun h => q2 (by omega), ?_⟩
  rcases hr with ⟨heq, hnil⟩ | ⟨hne, out, hscan, hlit⟩
  · left
    refine ⟨by omega, ?_⟩
    rw [htot, hnil]
  · right
    have hlt : i2 < m := by omega
    refine ⟨hlt, ?_⟩
    have hspec := scanArgs_spec rawBuf m (readNumArgs rawBuf) hm
      ((m : Int) - (i2 : Int)).toNat i2 i2 0 [] b2 (le_refl _) (by omega)
    rw [hscan] at hspec
    have hout := Option.some.inj hspec
    rw [htot, hlit, hout]
    have e0 : i2 - i2 = 0 := by omega
    rw [e0, List.take_zero, List.nil_append]
    simp

theorem splitAtZeros_ne_nil : ∀ (bs : List Byte), splitAtZeros bs ≠ [] := by
  intro bs
  cases bs with
  | nil => simp [splitAtZeros]
  | cons b bs =>
    rw [splitAtZeros]
    split
    · simp
    · split <;> simp

/-- The fields the third loop appends are the first pieces of the reference
splitting, the bytes `cur` already read being put in front of the first piece. -/
theorem splitFields_eq_take :
    ∀ (bs : List Byte) (k : Nat) (cur : List Byte),
      splitFields bs k cur
        = (match splitAtZeros bs with
            | [] => []
            | piece :: pieces => (cur ++ piece) :: pieces).take (min k (bs.count 0)) := by
  intro bs
  induction bs with
  | nil => intro k cur; simp [splitFields, splitAtZeros]
  | cons b bs ih =>
    intro k cur
    by_cases hk : k = 0
    · subst hk
      simp [splitFields]
    · obtain ⟨k1, rfl⟩ := Nat.exists_eq_succ_of_ne_zero hk
      by_cases hz : b = 0
      · subst hz
        rw [splitFields_cons_zero _ _ _ hk, ih (k1 + 1 - 1) []]
        have hc : (0 :: bs).count (0 : Byte) = bs.count 0 + 1 := by simp
        have hmin : min (k1 + 1) (bs.count (0 : Byte) + 1) = min k1 (bs.count 0) + 1 := by
          omega
        rw [hc, hmin]
        have hs : splitAtZeros (0 :: bs) = [] :: splitAtZeros bs := by simp [splitAtZeros]
        rw [hs]
        simp only [List.append_nil, List.take_succ_cons, Nat.add_sub_cancel]
        congr 2
        cases splitAtZeros bs <;> simp
      · rw [splitFields_cons_ne _ _ _ _ hk hz, ih (k1 + 1) (cur ++ [b])]
        have hc : (b :: bs).count (0 : Byte) = bs.count 0 := by
          rw [List.count_cons]
          simp [hz]
        rw [hc]
        have hne := splitAtZeros_ne_nil bs
        rw [splitAtZeros, if_neg hz]
        cases hsp : splitAtZeros bs with
        | nil => exact absurd hsp hne
        | cons piece pieces => simp

theorem splitFields_reference (numArgs : Int) (seg : List Byte) :
    splitFields seg numArgs.toNat [] = referenceFields numArgs seg := by
  rw [splitFields_eq_take, referenceFields]
  have h1 : (max numArgs 0).toNat = numArgs.toNat := by
    rcases le_total numArgs 0 with h | h
    · rw [max_eq_right h]; omega
    · rw [max_eq_left h]
  rw [h1]
  congr 1
  cases splitAtZeros seg <;> simp

theorem scanArgs_acc (rawBuf : List Byte) (L numArgs : Int) :
    ∀ (fuel i argsStart argsFound : Nat) (arguments out : List GoString),
      scanArgs rawBuf L numArgs fuel i argsStart argsFound arguments = some out →
      arguments <+: out := by
  intro fuel
  induction fuel with
  | zero =>
    intro i argsStart argsFound arguments out h
    simp [scanArgs] at h
    subst h
    exact List.prefix_refl _
  | succ fuel ih =>
    intro i argsStart argsFound arguments out h
    rw [scanArgs] at h
    split at h
    · split at h
      · exact absurd h (by simp)
      · split at h
        · split at h
          · exact absurd h (by simp)
          · exact List.IsPrefix.trans (List.prefix_append _ _) (ih _ _ _ _ _ h)
        · exact ih _ _ _ _ _ h
    · simp at h
      subst h
      exact List.prefix_refl _

/-- When the field being read is not empty, or starts at a non-zero byte, the
first string the third loop appends is not empty. -/
theorem scanArgs_head (rawBuf : List Byte) (L numArgs : Int) :
    ∀ (fuel i argsStart argsFound : Nat) (out : List GoString),
      argsStart ≤ i → (argsStart < i ∨ ∃ b, rawBuf[i]? = some b ∧ b ≠ 0) →
      scanArgs rawBuf L numArgs fuel i argsStart argsFound [] = some out →
      ∀ x, out.head? = some x → x ≠ [] := by
  intro fuel
  induction fuel with
  | zero =>
    intro i argsStart argsFound out _ _ h x hx
    simp [scanArgs] at h
    subst h
    simp at hx
  | succ fuel ih =>
    intro i argsStart argsFound out hs hcur h x hx
    rw [scanArgs] at h
    split at h
    · split at h
      · exact absurd h (by simp)
      · rename_i b hb
        split at h
        · rename_i hz
          split at h
          · exact absurd h (by simp)
          · rename_i str hstr
            obtain ⟨_, hle, hstr2⟩ := sliceOf_some _ _ _ _ hstr
            have hlt : argsStart < i := by
              rcases hcur with hc | ⟨c, hc1, hc2⟩
              · exact hc
              · rw [hb] at hc1
                exact absurd (hz ▸ (Option.some.inj hc1).symm) hc2
            have hpre := scanArgs_acc _ _ _ _ _ _ _ _ _ h
            obtain ⟨t, ht⟩ := hpre
            rw [← ht] at hx
            simp at hx
            subst hx
            intro hnil
            have hlen : ((rawBuf.drop argsStart).take (i - argsStart)).length = 0 := by
              rw [← hstr2, hnil]; rfl
            simp at hlen
            omega
        · exact ih _ _ _ _ (by omega) (Or.inl (by omega)) h x hx
    · simp at h
      subst h
      simp at hx

/-- The list-level value depends on the bytes below the declared length only. -/
theorem decodeList_take (numArgs L : Int) (rawBuf : List Byte) (n : Nat) (h : L ≤ (n : Int)) :
    decodeList numArgs L (rawBuf.take n) = decodeList numArgs L rawBuf := by
  unfold decodeList
  have e : (rawBuf.take n).take L.toNat = rawBuf.take L.toNat := by
    rw [List.take_take, Nat.min_eq_left (by omega)]
  rw [e]

theorem readNumArgs_take_ge (rawBuf : List Byte) (n : Nat) (h4 : 4 ≤ n) :
    readNumArgs (rawBuf.take n) = readNumArgs rawBuf := by
  match rawBuf, n, h4 with
  | [], _, _ => simp
  | [_], n + 4, _ => simp [readNumArgs]
  | [_, _], n + 4, _ => simp [readNumArgs]
  | [_, _, _], n + 4, _ => simp [readNumArgs]
  | _ :: _ :: _ :: _ :: _, n + 4, _ => simp [readNumArgs]

theorem writeBuffer_take (cap : Nat) (data : List Byte) :
    (writeBuffer cap data).take data.length = data.take cap := by
  unfold writeBuffer
  by_cases hc : data.length ≤ cap
  · rw [List.take_of_length_le hc, List.take_left]
  · have h1 : (data.take cap).length ≤ data.length := by
      rw [List.length_take]; omega
    have h2 : cap - data.length = 0 := by omega
    rw [h2, List.replicate_zero, List.append_nil, List.take_of_length_le h1]

/-! ## The claims, continued -/

/-- C11: when the native call reports an error, `processes` returns the nil
snapshot with that error, also when callbacks appended descriptors before (they
stay in `darwinProcs` and are not returned), and `findProcess` returns the nil
descriptor with the same error, for every pid. When the native call reports no
error, neither function returns an error. -/
theorem processes_error (native : NativeListing) (darwinProcs : List DarwinProcess)
    (pid : Int) :
    (∀ e, native.err = some e →
      (processes native darwinProcs).1 = (Slice.nil, some e) ∧
      (processes native darwinProcs).2
        = native.callbacks.map (fun c => { pid := c.1, ppid := c.2.1, binary := c.2.2 }) ∧
      (findProcess native darwinProcs pid).1 = (none, some e)) ∧
    (native.err = none →
      (processes native darwinProcs).1.2 = none ∧
      (findProcess native darwinProcs pid).1.2 = none) := by
  obtain ⟨calls, err⟩ := native
  constructor
  · intro e he
    simp only at he
    subst he
    simp [processes, findProcess, darwinProcesses, callbacks_foldl]
  · intro he
    simp only at he
    subst he
    simp [processes, findProcess, darwinProcesses]

/-- C11, witness: the native call lists one process and then reports errno 5. -/
theorem processes_error_witness :
    (processes { callbacks := [(1, 0, [97])], err := some 5 } []).1 = (Slice.nil, some 5) ∧
    (processes { callbacks := [(1, 0, [97])], err := some 5 } []).2
      = [{ pid := 1, ppid := 0, binary := [97] }] ∧
    (findProcess { callbacks := [(1, 0, [97])], err := some 5 } [] 1).1 = (none, some 5) :=
  (processes_error { callbacks := [(1, 0, [97])], err := some 5 } [] 1).1 5 rfl

/-- C13: refinement of the reference description. Let `z` be the index of the
first zero byte at or after offset 4, `a` the index of the first non-zero byte
after it, with `a` below the declared length, and `seg` the slice
`rawBuf[a:length]`. For a declared length within the buffer (whose size is below
`2^63`), the decoding returns the non-nil list of the first
`min(max(numArgs, 0), k)` pieces of `seg` split at its zero bytes, `k` being the
number of zero bytes of `seg`. -/
theorem decodeArguments_reference (rawBuf : List Byte) (length z a : Nat) (seg : List Byte)
    (hlen : length ≤ rawBuf.length) (hsz : rawBuf.length < 2 ^ 63)
    (hz4 : 4 ≤ z) (hza : z < a) (hal : a < length)
    (hzero : rawBuf[z]? = some 0) (hpath : ∀ j, 4 ≤ j → j < z → rawBuf[j]? ≠ some 0)
    (hpad : ∀ j, z < j → j < a → rawBuf[j]? = some 0) (hfirst : rawBuf[a]? ≠ some 0)
    (hseg : sliceOf rawBuf a length = some seg) :
    decodeArguments rawBuf length
      = some (Slice.lit (referenceFields (readNumArgs rawBuf) seg)) := by
  obtain ⟨i1, i2, g1, g2, b2, p1, p2, q1, q2, hres⟩ :=
    decodeArguments_cursor rawBuf length (by omega) hlen (by omega)
  have hi1 : i1 = z := by
    have n1 : ¬ i1 < z := fun h => hpath i1 g1 h (p2 (by omega))
    have n2 : ¬ z < i1 := fun h => p1 z hz4 h hzero
    omega
  subst hi1
  have hi2 : i2 = a := by
    have n1 : ¬ i2 < a := by
      intro h
      obtain ⟨b, hb, hb0⟩ := q2 (by omega)
      by_cases he : i2 = i1
      · rw [he, hzero] at hb
        exact hb0 (Option.some.inj hb).symm
      · rw [hpad i2 (by omega) h] at hb
        exact hb0 (Option.some.inj hb).symm
    have n2 : ¬ a < i2 := fun h => hfirst (q1 a (by omega) h)
    omega
  subst hi2
  obtain ⟨_, _, hseg2⟩ := sliceOf_some _ _ _ _ hseg
  rcases hres with ⟨he, _⟩ | ⟨_, hdec⟩
  · omega
  · rw [hdec, List.drop_take, ← hseg2, splitFields_reference]

/-- C13, witness: on the sample buffer `z = 8`, `a = 10`, the segment
`rawBuf[10:25]` has three zero bytes and the header count is 2. -/
theorem decodeArguments_reference_witness :
    referenceFields (readNumArgs sampleBuf)
        [97, 114, 103, 49, 0, 97, 114, 103, 50, 0, 101, 110, 118, 49, 0]
      = [[97, 114, 103, 49], [97, 114, 103, 50]] ∧
    decodeArguments sampleBuf 25
      = some (Slice.lit (referenceFields (readNumArgs sampleBuf)
          [97, 114, 103, 49, 0, 97, 114, 103, 50, 0, 101, 110, 118, 49, 0])) :=
  ⟨by decide,
    decodeArguments_reference sampleBuf 25 8 10 _ (by decide) (by decide) (by decide)
      (by decide) (by decide) (by decide)
      (fun j h1 h2 => by
        have hj : j = 4 ∨ j = 5 ∨ j = 6 ∨ j = 7 := by omega
        rcases hj with h | h | h | h <;> subst h <;> decide)
      (fun j h1 h2 => by
        have hj : j = 9 := by omega
        subst hj
        decide)
      (by decide) (by decide)⟩

/-- C14, amended: for a declared length of at least 4 and not larger than the
size of the buffer (a size below `2^63`, as for every Go slice), when no
non-zero byte occurs after the first zero byte at or after offset 4 and before
the declared length (which holds when there is no such zero byte), the decoding
returns the nil list, whatever the header count is, and `GetArguments` returns
it with a nil error. -/
theorem decodeArguments_no_arguments (rawBuf : List Byte) (length : Nat)
    (h4 : 4 ≤ length) (hlen : length ≤ rawBuf.length) (hsz : rawBuf.length < 2 ^ 63)
    (hzeros : ∀ z, 4 ≤ z → z < length → rawBuf[z]? = some 0 →
      (∀ j, 4 ≤ j → j < z → rawBuf[j]? ≠ some 0) →
      ∀ j, z < j → j < length → ∀ b, rawBuf[j]? = some b → b = 0) :
    decodeArguments rawBuf length = some Slice.nil ∧
    (∀ k pid, getRawArguments k pid = some (rawBuf, length, none) →
      GetArguments k pid = some (Slice.nil, none)) := by
  have hdec : decodeArguments rawBuf length = some Slice.nil := by
    obtain ⟨i1, i2, g1, g2, b2, p1, p2, q1, q2, hres⟩ :=
      decodeArguments_cursor rawBuf length h4 hlen (by omega)
    rcases hres with ⟨_, hnil⟩ | ⟨hlt, _⟩
    · exact hnil
    · exfalso
      obtain ⟨b, hb, hb0⟩ := q2 hlt
      have hz1 := p2 (by omega)
      by_cases he : i2 = i1
      · rw [he, hz1] at hb
        exact hb0 (Option.some.inj hb).symm
      · exact hb0 (hzeros i1 g1 (by omega) hz1 p1 i2 (by omega) hlt b hb)
  refine ⟨hdec, ?_⟩
  intro k pid hraw
  simp only [GetArguments, hraw, hdec]

/-- C14, witness: header count 2, path "p" and three zero bytes; also header
count 2 and a path that no zero byte ends. -/
theorem decodeArguments_no_arguments_witness :
    decodeArguments [2, 0, 0, 0, 112, 0, 0, 0] 8 = some Slice.nil ∧
    decodeArguments [2, 0, 0, 0, 112, 97] 6 = some Slice.nil :=
  ⟨(decodeArguments_no_arguments [2, 0, 0, 0, 112, 0, 0, 0] 8 (by decide) (by decide)
      (by decide)
      (fun z h1 h2 _ _ j h3 h4 b hb => by
        have hj : j = 5 ∨ j = 6 ∨ j = 7 := by omega
        rcases hj with h | h | h <;> subst h <;> exact (Option.some.inj hb).symm)).1,
    (decodeArguments_no_arguments [2, 0, 0, 0, 112, 97] 6 (by decide) (by decide)
      (by decide)
      (fun z h1 h2 hz _ j h3 h4 b hb => by
        have hj : z = 4 ∨ z = 5 := by omega
        rcases hj with h | h <;> subst h <;> exact absurd hz (by decide))).1⟩

/-- C14, counterexample: header count 2, path "p", three zero bytes and a
declared length of 9, one more than the size of the buffer: no non-zero byte
follows the end of the path, and the second loop reads `rawBuf[8]`, out of
range, so that the decoding panics instead of returning the nil list. -/
theorem decodeArguments_no_arguments_counterexample :
    (4 ≤ 9) ∧
    (∀ z, 4 ≤ z → z < 9 → ([2, 0, 0, 0, 112, 0, 0, 0] : List Byte)[z]? = some 0 →
      (∀ j, 4 ≤ j → j < z → ([2, 0, 0, 0, 112, 0, 0, 0] : List Byte)[j]? ≠ some 0) →
      ∀ j, z < j → j < 9 → ∀ b, ([2, 0, 0, 0, 112, 0, 0, 0] : List Byte)[j]? = some b →
        b = 0) ∧
    decodeArguments [2, 0, 0, 0, 112, 0, 0, 0] 9 = none ∧
    decodeArguments [2, 0, 0, 0, 112, 0, 0, 0] 9 ≠ some Slice.nil := by
  have hnone : decodeArguments [2, 0, 0, 0, 112, 0, 0, 0] 9 = none := by decide
  refine ⟨by decide, ?_, hnone, by rw [hnone]; simp⟩
  intro z h1 h2 _ _ j h3 h4 b hb
  have hj : j = 5 ∨ j = 6 ∨ j = 7 ∨ j = 8 := by omega
  rcases hj with h | h | h | h <;> subst h
  · exact (Option.some.inj hb).symm
  · exact (Option.some.inj hb).symm
  · exact (Option.some.inj hb).symm
  · exact absurd hb (by simp)

/-- C15, amended: when both queries succeed (the second is issued once the
buffer is made: an ARGMAX value that is not zero, within `maxAlloc`, and memory
the runtime obtains), the byte sequence `getRawArguments` returns is the whole
buffer it allocated, not truncated: its size is the ARGMAX value, its first
bytes are the bytes the kernel wrote, and the value the kernel stored over the
capacity is returned alongside it as the length. -/
theorem getRawArguments_buffer (k : Kernel) (pid : Int) (h1 : k.argmax.1 = 0)
    (h2 : k.argmax.2 ≠ 0) (hmax : k.argmax.2 ≤ maxAlloc)
    (halloc : k.allocates k.argmax.2 = true)
    (h3 : (k.procargs2 (int32OfInt pid) k.argmax.2).1 = 0) :
    ∃ buffer, getRawArguments k pid
        = some (buffer, (k.procargs2 (int32OfInt pid) k.argmax.2).2.2, none) ∧
      buffer.length = k.argmax.2 ∧
      buffer.take (k.procargs2 (int32OfInt pid) k.argmax.2).2.1.length
        = (k.procargs2 (int32OfInt pid) k.argmax.2).2.1.take k.argmax.2 := by
  refine ⟨writeBuffer k.argmax.2 (k.procargs2 (int32OfInt pid) k.argmax.2).2.1, ?_,
    writeBuffer_length _ _, ?_⟩
  · rw [getRawArguments_made k pid h1 h2 hmax halloc, if_neg (by simp [h3])]
  · exact writeBuffer_take _ _

/-- C15, witness: a capacity of 16 bytes of which the kernel writes 8. -/
theorem getRawArguments_buffer_witness :
    ∃ buffer, getRawArguments (kernelOf 16 0 [0, 0, 0, 0, 112, 0, 101, 0]) 1
        = some (buffer, 8, none) ∧
      buffer.length = 16 ∧
      buffer.take 8 = [0, 0, 0, 0, 112, 0, 101, 0] :=
  getRawArguments_buffer (kernelOf 16 0 [0, 0, 0, 0, 112, 0, 101, 0]) 1 (by decide)
    (by decide) (by decide) (by decide) (by decide)

/-- C15, counterexample: both queries succeed, the kernel writes 8 bytes into a
buffer of 16 and stores 8; the byte sequence returned has 16 bytes, not 8. -/
theorem getRawArguments_truncated_counterexample :
    getRawArguments (kernelOf 16 0 [0, 0, 0, 0, 112, 0, 101, 0]) 1
      = some ([0, 0, 0, 0, 112, 0, 101, 0, 0, 0, 0, 0, 0, 0, 0, 0], 8, none) ∧
    ([0, 0, 0, 0, 112, 0, 101, 0, 0, 0, 0, 0, 0, 0, 0, 0] : List Byte).length ≠ 8 := by
  refine ⟨by decide, by decide⟩

/-- C16: for a declared length of at least 4 and two buffers, each at least that
long, with the same first `length` bytes, the decoding returns the same result:
the bytes at or past the declared length have no influence. -/
theorem decodeArguments_agree (rawBuf1 rawBuf2 : List Byte) (length : Nat)
    (h4 : 4 ≤ length) (h1 : length ≤ rawBuf1.length) (h2 : length ≤ rawBuf2.length)
    (hagree : rawBuf1.take length = rawBuf2.take length) :
    decodeArguments rawBuf1 length = decodeArguments rawBuf2 length ∧
    ∃ r, decodeArguments rawBuf1 length = some r := by
  have hL := intOfUint64_le length
  have e1 := decodeArguments_eq rawBuf1 length (by omega) (by omega)
  have e2 := decodeArguments_eq rawBuf2 length (by omega) (by omega)
  refine ⟨?_, _, e1⟩
  rw [e1, e2, ← readNumArgs_take_ge rawBuf1 length h4, ← readNumArgs_take_ge rawBuf2 length h4,
    ← decodeList_take _ _ rawBuf1 length hL, ← decodeList_take _ _ rawBuf2 length hL, hagree]

/-- C16, witness: the sample buffer cut after "arg2" and followed by other
bytes decodes as the sample buffer does with the declared length 20. -/
theorem decodeArguments_agree_witness :
    decodeArguments sampleBuf 20
        = decodeArguments (sampleBuf.take 20 ++ [7, 7, 0, 9]) 20 ∧
    ∃ r, decodeArguments sampleBuf 20 = some r :=
  decodeArguments_agree sampleBuf (sampleBuf.take 20 ++ [7, 7, 0, 9]) 20 (by decide)
    (by decide) (by decide) (by decide)

/-- C17: whenever the decoding returns a list with a first string, that string
is not empty; a later string can be empty, as the second string of the result
for count 2, path "p", "a" and two zero bytes. -/
theorem decodeArguments_first_not_empty :
    (∀ (rawBuf : List Byte) (length : Nat) (r : Slice GoString) (x : GoString),
      decodeArguments rawBuf length = some r → r.toList.head? = some x → x ≠ []) ∧
    decodeArguments [2, 0, 0, 0, 112, 0, 97, 0, 0] 9 = some (Slice.lit [[97], []]) := by
  refine ⟨?_, by decide⟩
  intro rawBuf length r x h hx
  obtain ⟨_, i1, i2, e1, e2, hr⟩ := decodeArguments_unfold rawBuf length r h
  rcases hr with ⟨_, hnil⟩ | ⟨_, out, hscan, hlit⟩
  · subst hnil
    simp [Slice.toList] at hx
  · subst hlit
    simp only [Slice.toList] at hx
    obtain ⟨_, q2, _⟩ := skipNulls_post rawBuf _ _ _ _ (le_refl _) e2
    by_cases hlt : (i2 : Int) < intOfUint64 length
    · exact scanArgs_head rawBuf _ _ _ _ _ _ _ (le_refl _) (Or.inr (q2 hlt)) hscan x hx
    · rw [scanArgs_exit _ _ _ _ _ _ _ _ (fun hc => hlt hc.1)] at hscan
      cases hscan
      simp at hx

/-- C17, witness: the first string decoded from the sample buffer is "arg1". -/
theorem decodeArguments_first_not_empty_witness :
    ([97, 114, 103, 49] : GoString) ≠ [] :=
  decodeArguments_first_not_empty.1 sampleBuf 25
    (Slice.lit [[97, 114, 103, 49], [97, 114, 103, 50]]) [97, 114, 103, 49]
    (by decide) (by decide)

end GoPs
